import Mathlib

set_option maxRecDepth 16000

/-
Verification of the llmcpd indexing core: a shallow embedding of the
content cache (src/indexing/cache.ts), the BM25 search index
(src/indexing/search.ts), the heading-based markdown chunker, the
llms.txt title parsing and indexAll orchestration (src/server.ts), and
the deep-crawl coordinator (src/indexing/crawler.ts together with
src/indexing/crawler-worker.ts).

String handling is modelled over lists of characters so that every
definition evaluates by kernel reduction.  JavaScript Map objects are
modelled as association lists with insert-or-replace semantics, and the
event-loop interleaving of the crawler is modelled by an explicit
schedule that picks which in-flight worker settles at each await point.
-/

/-! Basic string helpers, mirroring the JavaScript primitives used by the
source (trim, toLowerCase, endsWith, substring search, split on line
breaks, join).  All operate on the character list underlying a string. -/

/-- Whitespace test matching the JavaScript whitespace class for the ASCII
inputs handled by this program. -/
def isWsChar (c : Char) : Bool :=
  c = ' ' ∨ c = '\t' ∨ c = '\n' ∨ c = '\r'

/-- Characters of a string with leading and trailing whitespace removed,
mirroring the JavaScript trim method. -/
def trimChars (l : List Char) : List Char :=
  ((l.dropWhile isWsChar).reverse.dropWhile isWsChar).reverse

/-- JavaScript trim on a string. -/
def strTrim (s : String) : String :=
  String.mk (trimChars s.data)

/-- ASCII lower-casing of one character, mirroring toLowerCase on the
ASCII inputs the program handles. -/
def asciiToLower (c : Char) : Char :=
  if 'A' ≤ c ∧ c ≤ 'Z' then Char.ofNat (c.toNat + 32) else c

/-- Test whether the second list starts with the first list. -/
def listBeginsWith : List Char → List Char → Bool
  | [], _ => true
  | _ :: _, [] => false
  | p :: ps, c :: cs => p = c ∧ listBeginsWith ps cs

/-- JavaScript startsWith on strings. -/
def strBeginsWith (s pat : String) : Bool :=
  listBeginsWith pat.data s.data

/-- JavaScript endsWith on strings. -/
def strEndsWith (s pat : String) : Bool :=
  listBeginsWith pat.data.reverse s.data.reverse

/-- Test whether the pattern occurs as a contiguous run inside the list,
mirroring the JavaScript includes method on strings. -/
def hasSubChars (pat : List Char) : List Char → Bool
  | [] => listBeginsWith pat []
  | c :: cs => listBeginsWith pat (c :: cs) || hasSubChars pat cs

/-- JavaScript includes on strings. -/
def hasSubstr (s pat : String) : Bool :=
  hasSubChars pat.data s.data

/-- Split a character list at every newline character; pieces keep any
carriage returns. -/
def splitOnNlAux (cur : List Char) : List Char → List (List Char)
  | [] => [cur.reverse]
  | c :: cs =>
    if c = '\n' then cur.reverse :: splitOnNlAux [] cs
    else splitOnNlAux (c :: cur) cs

/-- Drop one trailing carriage return, so that splitting at newlines
matches the JavaScript split on the regular expression for an optional
carriage return followed by a newline. -/
def stripCr (l : List Char) : List Char :=
  match l.getLast? with
  | some c => if c = '\r' then l.dropLast else l
  | none => l

/-- Line splitting used throughout the source: split on a newline with an
optional preceding carriage return. -/
def splitLines (s : String) : List String :=
  (splitOnNlAux [] s.data).map (fun l => String.mk (stripCr l))

/-- Join a list of strings with a separator, mirroring the JavaScript
join method on arrays. -/
def joinWith (sep : String) : List String → String
  | [] => ""
  | [x] => x
  | x :: y :: rest => x ++ sep ++ joinWith sep (y :: rest)

/-! Tokenization from src/indexing/search.ts: lower-case, replace every
character outside lower-case letters, digits and whitespace by a space,
split on whitespace, and keep tokens longer than one character that are
not stop words. -/

/-- Stop-word set of src/indexing/search.ts. -/
def stopWords : List String :=
  ["the", "and", "or", "for", "with", "that", "this", "from", "into",
   "your", "you", "are", "was", "were", "has", "have", "had", "its",
   "about", "can", "will", "not", "use", "using", "used", "via", "how",
   "what", "when", "where", "who"]

/-- Character kept by tokenization after lower-casing: a lower-case letter
or a digit.  Every other character is replaced by a space by the source
and hence acts as a separator. -/
def isTokenChar (c : Char) : Bool :=
  ('a' ≤ c ∧ c ≤ 'z') ∨ ('0' ≤ c ∧ c ≤ '9')

/-- Maximal runs of token characters, in order.  Equivalent to replacing
every non-token character by a space and splitting on whitespace, with
empty pieces dropped (they are removed by the length filter anyway). -/
def tokenRunsAux (cur : List Char) : List Char → List String
  | [] => if cur.isEmpty then [] else [String.mk cur.reverse]
  | c :: cs =>
    if isTokenChar c then tokenRunsAux (c :: cur) cs
    else if cur.isEmpty then tokenRunsAux [] cs
    else String.mk cur.reverse :: tokenRunsAux [] cs

/-- Tokenize function of src/indexing/search.ts. -/
def tokenize (text : String) : List String :=
  (tokenRunsAux [] (text.data.map asciiToLower)).filter
    (fun tok => decide (1 < tok.length) && !(decide (tok ∈ stopWords)))

/-! Association lists with string keys model the JavaScript Map objects of
the search index: get, insert-or-replace, and delete. -/

/-- Lookup in an association list, mirroring Map.get. -/
def aget {β : Type} : List (String × β) → String → Option β
  | [], _ => none
  | (k, v) :: rest, key => if k = key then some v else aget rest key

/-- Insert-or-replace in an association list, mirroring Map.set: an
existing binding is replaced in place, a new binding is appended. -/
def aset {β : Type} : List (String × β) → String → β → List (String × β)
  | [], key, v => [(key, v)]
  | (k, w) :: rest, key, v =>
    if k = key then (key, v) :: rest else (k, w) :: aset rest key v

/-- Delete from an association list, mirroring Map.delete. -/
def aremove {β : Type} : List (String × β) → String → List (String × β)
  | [], _ => []
  | (k, w) :: rest, key => if k = key then rest else (k, w) :: aremove rest key

/-- Keys of an association list. -/
def keysOf {β : Type} (l : List (String × β)) : List String :=
  l.map Prod.fst

/-! Search index model from src/indexing/search.ts. -/

/-- SearchDocument interface of src/indexing/search.ts. -/
structure SearchDocument where
  id : String
  url : String
  title : String
  «section» : String
  optional : Bool
  text : String
deriving DecidableEq, Repr

/-- Mutable state of the SearchIndex class: documents, the global
document-frequency table, per-document term frequencies, per-document
token counts, and the two length accumulators.  The average length is a
rational standing in for the JavaScript number computed by an exact
division. -/
structure SearchIndex where
  documents : List (String × SearchDocument)
  termDocFreq : List (String × Nat)
  termFreq : List (String × List (String × Nat))
  docLengths : List (String × Nat)
  avgDocLength : ℚ
  totalDocLength : Int

/-- Freshly constructed search index. -/
def SearchIndex.empty : SearchIndex :=
  { documents := [], termDocFreq := [], termFreq := [], docLengths := [],
    avgDocLength := 0, totalDocLength := 0 }

/-- Per-token frequency map of a token list, as built by the loop over
tokens in upsert. -/
def freqMapOf (tokens : List String) : List (String × Nat) :=
  tokens.foldl (fun m tk => aset m tk ((aget m tk).getD 0 + 1)) []

/-- Document-frequency decrement for one token of a superseded document:
decrement when the counter exceeds one, delete the entry otherwise. -/
def dfDec (df : List (String × Nat)) (token : String) : List (String × Nat) :=
  let count := (aget df token).getD 0
  if 1 < count then aset df token (count - 1) else aremove df token

/-- Document-frequency increment for one token of the new document. -/
def dfInc (df : List (String × Nat)) (token : String) : List (String × Nat) :=
  aset df token ((aget df token).getD 0 + 1)

/-- Upsert method of the SearchIndex class.  When the id is already
present, the length of the superseded version is subtracted from the total and
its unique tokens are decremented in the document-frequency table; then
the new version is recorded and its unique tokens incremented. -/
def SearchIndex.upsert (st : SearchIndex) (doc : SearchDocument) : SearchIndex :=
  let st1 :=
    match aget st.documents doc.id with
    | some oldDoc =>
      let oldTokens := tokenize oldDoc.text
      let oldLength : Int := ((aget st.docLengths doc.id).getD 0 : Nat)
      { st with
        totalDocLength := st.totalDocLength - oldLength,
        termDocFreq := oldTokens.dedup.foldl dfDec st.termDocFreq }
    | none => st
  let tokens := tokenize doc.text
  let documents := aset st1.documents doc.id doc
  let docLength := tokens.length
  let totalDocLength := st1.totalDocLength + (docLength : Int)
  { documents := documents
    termDocFreq := tokens.dedup.foldl dfInc st1.termDocFreq
    termFreq := aset st1.termFreq doc.id (freqMapOf tokens)
    docLengths := aset st1.docLengths doc.id docLength
    avgDocLength :=
      if 0 < documents.length then (totalDocLength : ℚ) / (documents.length : ℚ) else 0
    totalDocLength := totalDocLength }

/-- Clear method of the SearchIndex class. -/
def SearchIndex.clear (_st : SearchIndex) : SearchIndex :=
  SearchIndex.empty

/-- One index mutation: an upsert or a clear. -/
inductive IndexOp where
  | upsertOp (doc : SearchDocument)
  | clearOp
deriving Repr

/-- One index mutation applied to a state. -/
def stepOp (st : SearchIndex) (op : IndexOp) : SearchIndex :=
  match op with
  | IndexOp.upsertOp doc => SearchIndex.upsert st doc
  | IndexOp.clearOp => SearchIndex.clear st

/-- Apply a finite sequence of index mutations to a fresh index. -/
def applyOps (ops : List IndexOp) : SearchIndex :=
  ops.foldl stepOp SearchIndex.empty

/-- Number of currently held documents whose token list contains the given
term: the reference value for the document-frequency table. -/
def dfOf (docs : List (String × SearchDocument)) (t : String) : Nat :=
  docs.countP (fun p => decide (t ∈ tokenize p.2.text))

/-- Sum of the token counts of the currently held documents: the reference
value for the total-length accumulator. -/
def lenSum (docs : List (String × SearchDocument)) : Int :=
  (docs.map (fun p => ((tokenize p.2.text).length : Int))).sum

/-- Consistency of the derived tables of the search index with its
currently held document set. -/
def IndexConsistent (st : SearchIndex) : Prop :=
  (keysOf st.documents).Nodup ∧
  (keysOf st.termDocFreq).Nodup ∧
  (∀ t : String, aget st.termDocFreq t =
    if dfOf st.documents t = 0 then none else some (dfOf st.documents t)) ∧
  (∀ id : String, aget st.docLengths id =
    (aget st.documents id).map (fun d => (tokenize d.text).length)) ∧
  st.totalDocLength = lenSum st.documents ∧
  st.avgDocLength =
    (if st.documents.length = 0 then 0
     else (st.totalDocLength : ℚ) / (st.documents.length : ℚ))

/-! Snippet generation from src/indexing/search.ts. -/

/-- Occurrence test of a pattern at one position of the haystack. -/
def substrAt (hay pat : List Char) (i : Nat) : Bool :=
  decide ((hay.drop i).take pat.length = pat)

/-- All positions at which the pattern occurs in the haystack, ascending:
the positions visited by the indexOf loop of snippetFor. -/
def occurrencesOf (hay pat : List Char) : List Nat :=
  (List.range (hay.length + 1)).filter (substrAt hay pat)

/-- Containment test used for the window, mirroring includes. -/
def containsSub (hay pat : List Char) : Bool :=
  !(occurrencesOf hay pat).isEmpty

/-- Number of query tokens appearing in the window around one occurrence
position, with the window reaching 150 characters back and 250 forward,
clamped to the document. -/
def windowMatchCount (lower : List Char) (tokens : List String) (idx : Nat) : Nat :=
  let windowStart := idx - 150
  let windowEnd := min lower.length (idx + 250)
  let window := (lower.drop windowStart).take (windowEnd - windowStart)
  (tokens.filter (fun t => containsSub window t.data)).length

/-- Best occurrence position: scan tokens in order and their occurrence
positions ascending, keeping the first position whose window match count
strictly exceeds the best so far; none when no token occurs. -/
def bestSnippetIndex (lower : List Char) (tokens : List String) : Option Nat :=
  let cands := (tokens.map (fun t => occurrencesOf lower t.data)).flatten
  (cands.foldl
    (fun acc idx =>
      let c := windowMatchCount lower tokens idx
      if acc.2 < c then (some idx, c) else acc)
    ((none : Option Nat), 0)).1

/-- Collapse every whitespace run to a single space, mirroring the global
replacement in snippetFor; the flag records whether the previous character
was whitespace. -/
def collapseWsAux : Bool → List Char → List Char
  | _, [] => []
  | prevWs, c :: cs =>
    if isWsChar c then
      if prevWs then collapseWsAux true cs else ' ' :: collapseWsAux true cs
    else c :: collapseWsAux false cs

/-- Whitespace collapsing on a character list. -/
def collapseWs (l : List Char) : List Char :=
  collapseWsAux false l

/-- SnippetFor function of src/indexing/search.ts.  With no occurrence of
any token, the head of the document of maxLength characters is returned
trimmed; otherwise a window around the best occurrence is cut, whitespace
collapsed, and ellipsis markers added at clipped boundaries.  The 35
percent split of the context reproduces the source arithmetic at the
default length. -/
def snippetFor (text : String) (tokens : List String) (maxLength : Nat := 400) : String :=
  let lower := text.data.map asciiToLower
  match bestSnippetIndex lower tokens with
  | none => strTrim (String.mk (text.data.take maxLength))
  | some bestIndex =>
    let contextBefore := maxLength * 35 / 100
    let contextAfter := maxLength - contextBefore
    let start := bestIndex - contextBefore
    let stop := min text.data.length (bestIndex + contextAfter)
    let core := strTrim (String.mk (collapseWs ((text.data.drop start).take (stop - start))))
    let withPre := if 0 < start then "..." ++ core else core
    if stop < text.data.length then withPre ++ "..." else withPre

/-! Markdown chunking from the full-document worker (chunkMarkdown). -/

/-- Entry of the heading stack: a level and the heading title. -/
structure HeadEntry where
  level : Nat
  title : String
deriving DecidableEq, Repr

/-- Chunk produced by the markdown chunker (FullChunk interface). -/
structure FullChunk where
  title : String
  «section» : String
  content : String
  level : Nat
deriving DecidableEq, Repr

/-- Heading recognition: one to six hash characters followed by at least
one whitespace character; the raw title is the rest with leading
whitespace removed.  Mirrors the heading regular expression of the
source. -/
def parseHeading (line : String) : Option (Nat × String) :=
  let cs := line.data
  let n := (cs.takeWhile (fun c => c = '#')).length
  if n = 0 ∨ 6 < n then none
  else
    let rest := cs.drop n
    match rest with
    | [] => none
    | c :: _ =>
      if isWsChar c then some (n, String.mk (rest.dropWhile isWsChar)) else none

/-- Stack popping on a new heading: the while loop that pops every top
entry whose level is at least the new level.  The stack is kept with its
top at the head. -/
def popGE : List HeadEntry → Nat → List HeadEntry
  | [], _ => []
  | e :: rest, level => if level ≤ e.level then popGE rest level else e :: rest

/-- Breadcrumb of a heading stack: titles joined from the bottom of the
stack, separated by the section separator. -/
def breadcrumb (stack : List HeadEntry) : String :=
  joinWith " > " ((stack.map (fun e => e.title)).reverse)

/-- Chunk under construction. -/
structure CurrentChunk where
  title : String
  «section» : String
  level : Nat
  lines : List String
deriving Repr

/-- State of the chunker scan. -/
structure ChunkState where
  chunks : List FullChunk
  headingStack : List HeadEntry
  current : Option CurrentChunk
  preamble : List String
  sawHeading : Bool
deriving Repr

/-- Emit the chunk under construction unless its trimmed content is
empty. -/
def pushChunkInto (chunks : List FullChunk) (c : CurrentChunk) : List FullChunk :=
  let content := strTrim (joinWith "\n" c.lines)
  if content = "" then chunks
  else chunks ++ [{ title := c.title, «section» := c.«section», content := content, level := c.level }]

/-- Emit the preamble as a chunk unless its trimmed content is empty. -/
def pushPreambleInto (chunks : List FullChunk) (preamble : List String) : List FullChunk :=
  let content := strTrim (joinWith "\n" preamble)
  if content = "" then chunks
  else chunks ++ [{ title := "Preamble", «section» := "Preamble", content := content, level := 0 }]

/-- One scan step of chunkMarkdown over a line. -/
def chunkLine (st : ChunkState) (line : String) : ChunkState :=
  match parseHeading line with
  | some (level, rawTitle) =>
    let chunks0 :=
      if st.sawHeading = false ∧ st.preamble ≠ [] then pushPreambleInto st.chunks st.preamble
      else st.chunks
    let preamble1 :=
      if st.sawHeading = false ∧ st.preamble ≠ [] then [] else st.preamble
    let chunks1 :=
      match st.current with
      | some c => pushChunkInto chunks0 c
      | none => chunks0
    let heading := if strTrim rawTitle = "" then "Untitled Section" else strTrim rawTitle
    let stack1 := ({ level := level, title := heading } : HeadEntry) :: popGE st.headingStack level
    { chunks := chunks1
      headingStack := stack1
      current := some { title := heading, «section» := breadcrumb stack1, level := level, lines := [line] }
      preamble := preamble1
      sawHeading := true }
  | none =>
    if st.sawHeading = false then
      if strTrim line ≠ "" then { st with preamble := st.preamble ++ [line] } else st
    else
      match st.current with
      | some c => { st with current := some { c with lines := c.lines ++ [line] } }
      | none => st

/-- ChunkMarkdown function of the full-document worker. -/
def chunkMarkdown (markdown : String) : List FullChunk :=
  let lines := splitLines markdown
  let final := lines.foldl chunkLine
    { chunks := [], headingStack := [], current := none, preamble := [], sawHeading := false }
  let chunks :=
    match final.current with
    | some c => pushChunkInto final.chunks c
    | none => final.chunks
  if final.sawHeading = false ∧ final.preamble ≠ [] then pushPreambleInto chunks final.preamble
  else chunks

/-! Content cache from src/indexing/cache.ts.  The network is represented
by the response the fetch call settles with: either a rejection carrying a
message (timeout abort or network fault) or a response record whose body
read may itself fault.  Persistence is represented by the optional entry
handed to the set method. -/

/-- CacheEntry interface of src/indexing/cache.ts. -/
structure CacheEntry where
  url : String
  fetchedAt : String
  status : Nat
  ok : Bool
  contentType : Option String
  etag : Option String
  lastModified : Option String
  content : String
deriving DecidableEq, Repr

deriving instance DecidableEq for Except

/-- Response record as the platform fetch delivers it: status, the three
relevant headers, and the result of reading the body text, which may
itself fault. -/
structure RespInit where
  status : Nat
  contentType : Option String
  etag : Option String
  lastModified : Option String
  textResult : Except String String
deriving DecidableEq, Repr

/-- Ok flag of a platform response: status in the 2xx range. -/
def respOk (status : Nat) : Bool :=
  200 ≤ status ∧ status ≤ 299

/-- Observable outcome of one fetch call: the entry returned to the caller
and the entry persisted to disk, when any. -/
structure FetchOutcome where
  returned : CacheEntry
  persisted : Option CacheEntry
deriving DecidableEq, Repr

/-- Fresh-response path of CacheManager.fetch: read the body, build the
new entry, persist it and return it.  A faulting body read escapes, as in
the source, which has no catch around this region. -/
def CacheManager.fetchFresh (url now : String) (r : RespInit) : Except String FetchOutcome :=
  match r.textResult with
  | Except.error e => Except.error e
  | Except.ok body =>
    let entry : CacheEntry :=
      { url := url, fetchedAt := now, status := r.status, ok := respOk r.status,
        contentType := r.contentType, etag := r.etag,
        lastModified := r.lastModified, content := body }
    Except.ok { returned := entry, persisted := some entry }

/-- Fetch method of CacheManager.  The cached argument is the entry the
preceding get returned, the resp argument is how the platform fetch
settled.  A rejected fetch escapes unchanged: the source wraps the region
in try/finally with no catch, the finally only clearing the timer. -/
def CacheManager.fetch (url : String) (cached : Option CacheEntry) (now : String)
    (resp : Except String RespInit) : Except String FetchOutcome :=
  match resp with
  | Except.error e => Except.error e
  | Except.ok r =>
    match cached with
    | some c =>
      if r.status = 304 then Except.ok { returned := c, persisted := none }
      else CacheManager.fetchFresh url now r
    | none => CacheManager.fetchFresh url now r

/-! Manifest title parsing and the indexAll orchestration from
src/server.ts together with parseLlmsTxt from src/indexing/parser.ts. -/

/-- Title computation of parseLlmsTxt: the first line whose trimmed form
starts with a hash and a space sets the title to the rest with the hash
and following whitespace removed, trimmed; the parse throws when the
scan leaves the title empty.  The remaining record fields of the parse
are not needed by any claim and are omitted. -/
def parseLlmsTxtTitle (markdown : String) : Except String String :=
  let lines := splitLines markdown
  let title := lines.foldl
    (fun acc line =>
      let trimmed := strTrim line
      if acc = "" ∧ strBeginsWith trimmed "# " then
        strTrim (String.mk ((trimmed.data.drop 1).dropWhile isWsChar))
      else acc)
    ""
  if title = "" then Except.error "llms.txt is missing required H1 title (# ...)"
  else Except.ok title

/-- Status record of the indexing service (the fields touched by
indexAll). -/
structure IndexingStatus where
  inProgress : Bool
  lastError : Option String
  deepCrawledPages : Nat
  llmsTitle : Option String
  lastIndexedAt : Option String
  pagesIndexed : Nat
deriving DecidableEq, Repr

/-- State of the indexing service: status, the document map, and the
search index. -/
structure IndexingService where
  status : IndexingStatus
  documents : List (String × SearchDocument)
  searchIndex : SearchIndex

/-- Try-block body of IndexingService.indexAll.  A thrown error carries
the state at the throw point.  Everything after the clear of the document
map and search index (link indexing, full-document chunking, deep crawl,
final status fields) is abstracted by the rest continuation, which
receives the cleared state and the parsed title. -/
def IndexingService.indexAllGo (st : IndexingService) (llmsEntry : CacheEntry)
    (rest : IndexingService → String → Except (IndexingService × String) IndexingService) :
    Except (IndexingService × String) IndexingService :=
  if llmsEntry.ok = false then
    Except.error (st, "Failed to fetch llms.txt (" ++ toString llmsEntry.status ++ ")")
  else
    match parseLlmsTxtTitle llmsEntry.content with
    | Except.error e => Except.error (st, e)
    | Except.ok title =>
      let st1 := { st with status := { st.status with llmsTitle := some title } }
      let st2 := { st1 with documents := [], searchIndex := SearchIndex.clear st1.searchIndex }
      rest st2 title

/-- IndexAll method of the indexing service: mark the pass in progress and
reset the error, run the body, and on a throw record the message as the
terminal error of the pass instead of propagating it. -/
def IndexingService.indexAll (st : IndexingService) (llmsEntry : CacheEntry)
    (rest : IndexingService → String → Except (IndexingService × String) IndexingService) :
    IndexingService :=
  let st0 := { st with status :=
    { st.status with inProgress := true, lastError := none, deepCrawledPages := 0 } }
  match IndexingService.indexAllGo st0 llmsEntry rest with
  | Except.ok st1 => { st1 with status := { st1.status with inProgress := false } }
  | Except.error (st1, e) =>
    { st1 with status := { st1.status with lastError := some e, inProgress := false } }

/-! Deep crawler from src/indexing/crawler.ts and
src/indexing/crawler-worker.ts.  Fetching, HTML conversion and markdown
link extraction inside one worker are abstracted by a web oracle giving,
for each URL, whether the fetch succeeds, the normalized content, and the
markdown links extractable from that content.  The coordinator loop is
modelled step for step; the only nondeterminism of the real system is
which in-flight workers settle while the coordinator awaits, which a
schedule resolves: one index list per loop iteration, each index choosing
an in-flight task to settle at that await point. -/

/-- CrawlTask interface of src/indexing/crawler-worker.ts. -/
structure CrawlTask where
  url : String
  depth : Nat
  maxDepth : Nat
  parentUrl : String
  «section» : String
  title : String
deriving DecidableEq, Repr

/-- CrawlResult interface of src/indexing/crawler-worker.ts. -/
structure CrawlResult where
  url : String
  content : String
  links : List String
  depth : Nat
  error : Option String
deriving DecidableEq, Repr

/-- CrawledDocument interface of src/indexing/crawler.ts. -/
structure CrawledDocument where
  url : String
  content : String
  depth : Nat
  «section» : String
  title : String
deriving DecidableEq, Repr

/-- Web oracle: outcome of fetching one URL, with the markdown links its
normalized content yields. -/
structure WebPage where
  ok : Bool
  content : String
  links : List String

/-- Crawl function of crawler-worker.ts: on a failed fetch return an error
result with no content and no links; on success return the content, and
extract links only when the task depth is strictly below its maximum
depth. -/
def CrawlerWorker.crawl (web : String → WebPage) (task : CrawlTask) : CrawlResult :=
  let page := web task.url
  if page.ok = false then
    { url := task.url, content := "", links := [], depth := task.depth,
      error := some "Failed to fetch" }
  else
    { url := task.url, content := page.content,
      links := if task.depth < task.maxDepth then page.links else [],
      depth := task.depth, error := none }

/-- Coordinator state of DeepCrawler: visited URLs, pending queue,
in-flight tasks (the active worker count is their number), and results.
The dispatched field is a history of every task handed to a worker; it
influences nothing and only serves the statements about dispatch
uniqueness. -/
structure CrawlState where
  crawledUrls : List String
  pendingTasks : List CrawlTask
  active : List CrawlTask
  results : List CrawledDocument
  dispatched : List CrawlTask
deriving DecidableEq, Repr

/-- Message handler of runWorker: decrementing the worker count is the
removal from the active list done by the caller; an error result adds
nothing, a success appends the document and enqueues every discovered
link not yet visited as a child task one level deeper. -/
def DeepCrawler.handleMessage (web : String → WebPage) (task : CrawlTask)
    (st : CrawlState) : CrawlState :=
  let result := CrawlerWorker.crawl web task
  match result.error with
  | some _ => st
  | none =>
    let doc : CrawledDocument :=
      { url := result.url, content := result.content, depth := result.depth,
        «section» := task.«section», title := task.title }
    let newTasks := (result.links.filter (fun l => !(decide (l ∈ st.crawledUrls)))).map
      (fun l =>
        { url := l, depth := result.depth + 1, maxDepth := task.maxDepth,
          parentUrl := result.url, «section» := task.«section»,
          title := task.title ++ " (linked)" })
    { st with results := st.results ++ [doc],
              pendingTasks := st.pendingTasks ++ newTasks }

/-- Settle the in-flight task at the given index: remove it from the
active list and run the message handler on its result. -/
def DeepCrawler.completeAt (web : String → WebPage) (st : CrawlState) (i : Nat) : CrawlState :=
  if h : i < st.active.length then
    DeepCrawler.handleMessage web (st.active.get ⟨i, h⟩)
      { st with active := st.active.eraseIdx i }
  else st

/-- Inner dispatch loop of processTasks over an explicit pending list:
while tasks are pending, the worker pool is not full and the result list
is below the document budget, pop the next task; skip it when its URL is
already visited, otherwise mark it visited and hand it to a worker. -/
def DeepCrawler.dispatchAux (maxWorkers maxDocuments : Nat) :
    List CrawlTask → CrawlState → CrawlState
  | [], st => { st with pendingTasks := [] }
  | task :: rest, st =>
    if st.active.length < maxWorkers ∧ st.results.length < maxDocuments then
      if task.url ∈ st.crawledUrls then
        DeepCrawler.dispatchAux maxWorkers maxDocuments rest st
      else
        DeepCrawler.dispatchAux maxWorkers maxDocuments rest
          { st with crawledUrls := st.crawledUrls ++ [task.url],
                    active := st.active ++ [task],
                    dispatched := st.dispatched ++ [task] }
    else { st with pendingTasks := task :: rest }

/-- Inner dispatch loop starting from the pending queue of the state. -/
def DeepCrawler.dispatchLoop (maxWorkers maxDocuments : Nat) (st : CrawlState) : CrawlState :=
  DeepCrawler.dispatchAux maxWorkers maxDocuments st.pendingTasks st

/-- Settle the in-flight tasks chosen by the schedule for one await
point, in order. -/
def DeepCrawler.applyCompletions (web : String → WebPage) (st : CrawlState)
    (idxs : List Nat) : CrawlState :=
  idxs.foldl (DeepCrawler.completeAt web) st

/-- Repeatedly settle the first in-flight task. -/
def DeepCrawler.drainAux (web : String → WebPage) : Nat → CrawlState → CrawlState
  | 0, st => st
  | n + 1, st => DeepCrawler.drainAux web n (DeepCrawler.completeAt web st 0)

/-- Final await of processTasks: every still-outstanding worker settles,
its message handler running as usual. -/
def DeepCrawler.drain (web : String → WebPage) (st : CrawlState) : CrawlState :=
  DeepCrawler.drainAux web st.active.length st

/-- Outer loop of DeepCrawler.processTasks.  Each iteration mirrors one
pass of the while loop: exit when nothing is pending and nothing is in
flight; when the budget is reached, discard pending work, break, and let
the outstanding workers settle; otherwise dispatch, then await at the
capacity or idle point, the schedule choosing which workers settle there
(a race always settles at least one).  Fuel bounds the iterations; an
exhausted fuel is an aborted run. -/
def DeepCrawler.processTasks (web : String → WebPage) (maxWorkers maxDocuments : Nat) :
    Nat → List (List Nat) → CrawlState → Option CrawlState
  | 0, _, _ => none
  | fuel + 1, sched, st =>
    if st.pendingTasks = [] ∧ st.active = [] then some st
    else if maxDocuments ≤ st.results.length then
      some (DeepCrawler.drain web { st with pendingTasks := [] })
    else
      let st1 := DeepCrawler.dispatchLoop maxWorkers maxDocuments st
      let idxs := sched.headD []
      let sched1 := sched.tail
      if maxWorkers ≤ st1.active.length ∧ st1.active ≠ [] then
        DeepCrawler.processTasks web maxWorkers maxDocuments fuel sched1
          (DeepCrawler.applyCompletions web st1 (if idxs = [] then [0] else idxs))
      else if st1.pendingTasks = [] ∧ st1.active ≠ [] then
        DeepCrawler.processTasks web maxWorkers maxDocuments fuel sched1
          (DeepCrawler.applyCompletions web st1 idxs)
      else
        DeepCrawler.processTasks web maxWorkers maxDocuments fuel sched1 st1

/-- Default document budget of src/indexing/crawler.ts. -/
def DEFAULT_MAX_CRAWL_DOCUMENTS : Nat := 100

/-- CrawlerOptions interface of src/indexing/crawler.ts. -/
structure CrawlerOptions where
  maxDepth : Nat
  maxWorkers : Nat
  maxDocuments : Option Nat
deriving Repr

/-- Seed link handed to DeepCrawler.crawl. -/
structure SeedLink where
  url : String
  «section» : String
  title : String
deriving Repr

/-- Markdown candidate test of the seeding loop and of link extraction. -/
def isMarkdownUrl (url : String) : Bool :=
  strEndsWith url ".md" || hasSubstr url ".md#"

/-- Crawl method of DeepCrawler: seed depth-zero tasks from the markdown
candidates among the initial URLs, then run the scheduling loop. -/
def DeepCrawler.crawl (web : String → WebPage) (opts : CrawlerOptions)
    (initialUrls : List SeedLink) (sched : List (List Nat)) (fuel : Nat) :
    Option CrawlState :=
  let seeds := (initialUrls.filter (fun s => isMarkdownUrl s.url)).map
    (fun s =>
      ({ url := s.url, depth := 0, maxDepth := opts.maxDepth, parentUrl := "",
         «section» := s.«section», title := s.title } : CrawlTask))
  DeepCrawler.processTasks web opts.maxWorkers
    (opts.maxDocuments.getD DEFAULT_MAX_CRAWL_DOCUMENTS) fuel sched
    { crawledUrls := [], pendingTasks := seeds, active := [], results := [],
      dispatched := [] }

/-! Concrete inputs used by the counterexample and witness runs. -/

/-- Web in which every URL succeeds with no outgoing links. -/
def webFive : String → WebPage :=
  fun _ => { ok := true, content := "content", links := [] }

/-- Five markdown seed candidates. -/
def seedsFive : List SeedLink :=
  [{ url := "a1.md", «section» := "S", title := "T1" },
   { url := "a2.md", «section» := "S", title := "T2" },
   { url := "a3.md", «section» := "S", title := "T3" },
   { url := "a4.md", «section» := "S", title := "T4" },
   { url := "a5.md", «section» := "S", title := "T5" }]

/-- Options of the budget scenario: four workers, budget of two. -/
def optsFive : CrawlerOptions :=
  { maxDepth := 0, maxWorkers := 4, maxDocuments := some 2 }

/-- Schedule of the budget scenario: the race after the first dispatch
settles one worker; the next race settles the remaining four. -/
def schedFive : List (List Nat) :=
  [[0], [0, 0, 0, 0]]

/-- Web of the depth scenario: the first page links to two others, one of
which links to a fourth. -/
def webChain : String → WebPage :=
  fun u =>
    if u = "A.md" then { ok := true, content := "A", links := ["B.md", "C.md"] }
    else if u = "B.md" then { ok := true, content := "B", links := ["D.md"] }
    else { ok := true, content := u, links := [] }

/-- Single seed of the depth scenario. -/
def seedsChain : List SeedLink :=
  [{ url := "A.md", «section» := "S", title := "A" }]

/-- Options of the depth scenario: depth bound one. -/
def optsChain : CrawlerOptions :=
  { maxDepth := 1, maxWorkers := 4, maxDocuments := none }

/-- Schedule of the depth scenario: the seed settles alone, then its two
children settle. -/
def schedChain : List (List Nat) :=
  [[0], [0, 0]]

/-- Document of 260 identical letters used by the snippet scenario. -/
def longText : String :=
  String.mk (List.replicate 260 'b')

/-- Cached entry with content hello, as in the revalidation scenario. -/
def helloEntry : CacheEntry :=
  { url := "https://example.com/test", fetchedAt := "t0", status := 200, ok := true,
    contentType := some "text/plain", etag := some "a1", lastModified := none,
    content := "hello" }

/-- Not-modified response. -/
def resp304 : RespInit :=
  { status := 304, contentType := none, etag := none, lastModified := none,
    textResult := Except.ok "" }

/-! Theorems.  Helper lemmas come first inside each group, the claim
theorems close each group. -/

/-! Content cache claims. -/

/-- C2.  The claim requires CacheManager.fetch never to let a fetch fault
escape: a timeout or network fault should yield a returned failure entry.
The source has no catch around the fetch region (the try carries only a
finally clearing the timer), so a rejected fetch escapes unchanged; the
own test of the repository expects a returned entry with status 408 on a
timeout abort, which this code cannot produce.  The theorem evaluates the
model on a rejected fetch: the fault propagates for every input, in
particular for the aborted request of the test. -/
theorem cacheFetch_fault_propagates :
    (∀ (url now : String) (cached : Option CacheEntry) (e : String),
      CacheManager.fetch url cached now (Except.error e) = Except.error e) ∧
    CacheManager.fetch "https://example.com/test" none "t1"
      (Except.error "The operation was aborted") =
      Except.error "The operation was aborted" :=
  ⟨fun _ _ _ _ => rfl, rfl⟩

/-- C4.  A not-modified response on a URL with an existing cache entry
returns the previously cached entry unchanged, and persists nothing. -/
theorem cacheFetch_304_returns_cached (url now : String) (c : CacheEntry) (r : RespInit)
    (h : r.status = 304) :
    CacheManager.fetch url (some c) now (Except.ok r) =
      Except.ok { returned := c, persisted := none } := by
  simp [CacheManager.fetch, h]

/-- Witness for C4: an entry cached with content hello is returned with
content hello on a 304 response. -/
theorem cacheFetch_304_returns_cached_witness :
    helloEntry.content = "hello" ∧
    CacheManager.fetch "https://example.com/test" (some helloEntry) "t1"
      (Except.ok resp304) = Except.ok { returned := helloEntry, persisted := none } :=
  ⟨rfl, cacheFetch_304_returns_cached "https://example.com/test" "t1" helloEntry resp304 rfl⟩

/-- C9.  A not-modified response on a URL with no existing cache entry is
not returned early: the body is read, a new entry with status 304 and a
false ok flag is built, persisted, and returned. -/
theorem cacheFetch_304_no_entry (url now body : String) (r : RespInit)
    (h304 : r.status = 304) (htext : r.textResult = Except.ok body) :
    CacheManager.fetch url none now (Except.ok r) =
      Except.ok
        { returned :=
            { url := url, fetchedAt := now, status := 304, ok := false,
              contentType := r.contentType, etag := r.etag,
              lastModified := r.lastModified, content := body },
          persisted := some
            { url := url, fetchedAt := now, status := 304, ok := false,
              contentType := r.contentType, etag := r.etag,
              lastModified := r.lastModified, content := body } } := by
  simp [CacheManager.fetch, CacheManager.fetchFresh, htext, h304, respOk]

/-- Witness for C9: concrete 304 response with a readable body and no
existing entry. -/
theorem cacheFetch_304_no_entry_witness :
    CacheManager.fetch "u" none "t2"
      (Except.ok { status := 304, contentType := none, etag := none,
                   lastModified := none, textResult := Except.ok "stale body" }) =
      Except.ok
        { returned :=
            { url := "u", fetchedAt := "t2", status := 304, ok := false,
              contentType := none, etag := none, lastModified := none,
              content := "stale body" },
          persisted := some
            { url := "u", fetchedAt := "t2", status := 304, ok := false,
              contentType := none, etag := none, lastModified := none,
              content := "stale body" } } :=
  cacheFetch_304_no_entry "u" "t2" "stale body" _ rfl rfl

/-! Manifest-title abort claim. -/

/-- C7.  When the fetched manifest has no H1 title, the parse fault is
raised before the document map and search index are cleared: the pass
ends with the previous documents and index intact, the failure recorded
as the terminal error, the in-progress flag lowered, and nothing
propagated, whatever the rest of the pass would have done. -/
theorem indexAll_missing_title_preserves_index (st : IndexingService)
    (entry : CacheEntry) (e : String)
    (rest : IndexingService → String → Except (IndexingService × String) IndexingService)
    (hok : entry.ok = true)
    (hparse : parseLlmsTxtTitle entry.content = Except.error e) :
    IndexingService.indexAll st entry rest =
      { st with status :=
          { st.status with inProgress := false, lastError := some e,
                           deepCrawledPages := 0 } } := by
  simp [IndexingService.indexAll, IndexingService.indexAllGo, hok, hparse]

/-- Witness for C7: a manifest without a leading hash title aborts the
pass and leaves a previously filled index untouched. -/
theorem indexAll_missing_title_preserves_index_witness :
    IndexingService.indexAll
      { status := { inProgress := false, lastError := none, deepCrawledPages := 3,
                    llmsTitle := some "Old", lastIndexedAt := some "t0", pagesIndexed := 7 },
        documents := [("d1", { id := "d1", url := "u1", title := "D1", «section» := "S",
                               optional := false, text := "old text" })],
        searchIndex := SearchIndex.empty } 
      { url := "m", fetchedAt := "t1", status := 200, ok := true, contentType := none,
        etag := none, lastModified := none, content := "hello\n- [A](a.md)" }
      (fun s _ => Except.ok s) =
      { status := { inProgress := false,
                    lastError := some "llms.txt is missing required H1 title (# ...)",
                    deepCrawledPages := 0,
                    llmsTitle := some "Old", lastIndexedAt := some "t0", pagesIndexed := 7 },
        documents := [("d1", { id := "d1", url := "u1", title := "D1", «section» := "S",
                               optional := false, text := "old text" })],
        searchIndex := SearchIndex.empty } :=
  indexAll_missing_title_preserves_index _ _ _ _ rfl (by decide)

/-! Snippet claim. -/

/-- Flatten of a map whose every piece is empty is empty. -/
theorem flatten_map_eq_nil {α β : Type} (f : α → List β) (l : List α)
    (h : ∀ x ∈ l, f x = []) : (l.map f).flatten = [] := by
  induction l with
  | nil => rfl
  | cons x xs ih =>
    simp only [List.map_cons, List.flatten_cons, h x (by simp)]
    exact ih (fun y hy => h y (by simp [hy]))

/-- Best-occurrence scan finds nothing when no token occurs. -/
theorem bestSnippetIndex_eq_none (lower : List Char) (tokens : List String)
    (h : ∀ t ∈ tokens, occurrencesOf lower t.data = []) :
    bestSnippetIndex lower tokens = none := by
  unfold bestSnippetIndex
  rw [flatten_map_eq_nil _ _ h]
  rfl

/-- C8 (amended).  When no query token occurs anywhere in the lowercased
document text, snippet generation returns the first maxLength characters
of the document, trimmed; the default maxLength is 400, not roughly
240 as the claim states. -/
theorem snippet_no_match_returns_head (text : String) (tokens : List String)
    (h : ∀ t ∈ tokens, occurrencesOf (text.data.map asciiToLower) t.data = []) :
    snippetFor text tokens = strTrim (String.mk (text.data.take 400)) := by
  have hb := bestSnippetIndex_eq_none (text.data.map asciiToLower) tokens h
  simp only [snippetFor, hb]

/-- Witness for C8: a 260-letter document and a query token that does not
occur in it. -/
theorem snippet_no_match_returns_head_witness :
    snippetFor longText ["zz"] = strTrim (String.mk (longText.data.take 400)) :=
  snippet_no_match_returns_head longText ["zz"] (by decide)

/-- Counterexample for C8 as stated: on a 260-letter document containing
no occurrence of the query token, the snippet is the whole 260-letter
document (the head of 400 characters), not the first 240 characters. -/
theorem snippet_no_match_240_counterexample :
    occurrencesOf (longText.data.map asciiToLower) ("zz".data) = [] ∧
    snippetFor longText ["zz"] = strTrim (String.mk (longText.data.take 400)) ∧
    snippetFor longText ["zz"] ≠ String.mk (longText.data.take 240) ∧
    (snippetFor longText ["zz"]).length = 260 := by
  refine ⟨by decide, by decide, by decide, by decide⟩

/-! Chunker claim. -/

/-- Membership in the result of emitting the current chunk: either an
already emitted chunk, or the new chunk, whose content is nonempty. -/
theorem mem_pushChunkInto (chunks : List FullChunk) (c : CurrentChunk) (x : FullChunk)
    (hx : x ∈ pushChunkInto chunks c) : x ∈ chunks ∨ x.content ≠ "" := by
  unfold pushChunkInto at hx
  by_cases hc : strTrim (joinWith "\n" c.lines) = ""
  · simp [hc] at hx
    exact Or.inl hx
  · simp [hc] at hx
    rcases hx with hx | hx
    · exact Or.inl hx
    · right
      rw [hx]
      exact hc

/-- Membership in the result of emitting the preamble. -/
theorem mem_pushPreambleInto (chunks : List FullChunk) (pre : List String) (x : FullChunk)
    (hx : x ∈ pushPreambleInto chunks pre) : x ∈ chunks ∨ x.content ≠ "" := by
  unfold pushPreambleInto at hx
  by_cases hc : strTrim (joinWith "\n" pre) = ""
  · simp [hc] at hx
    exact Or.inl hx
  · simp [hc] at hx
    rcases hx with hx | hx
    · exact Or.inl hx
    · right
      rw [hx]
      exact hc

/-- Every chunk held by the state after one scan step has nonempty
content, when the chunks held before do. -/
theorem chunkLine_content_ne (st : ChunkState) (line : String)
    (h : ∀ x ∈ st.chunks, x.content ≠ "") :
    ∀ x ∈ (chunkLine st line).chunks, x.content ≠ "" := by
  intro x hx
  unfold chunkLine at hx
  rcases hp : parseHeading line with _ | ⟨level, rawTitle⟩
  · rw [hp] at hx
    simp only at hx
    by_cases hs : st.sawHeading = false
    · by_cases hl : strTrim line ≠ ""
      · simp [hs, hl] at hx
        exact h x hx
      · simp [hs, hl] at hx
        exact h x hx
    · rcases hcur : st.current with _ | c
      · simp [hs, hcur] at hx
        exact h x hx
      · simp [hs, hcur] at hx
        exact h x hx
  · rw [hp] at hx
    simp only at hx
    rcases hcur : st.current with _ | c
    · rw [hcur] at hx
      by_cases hpre : st.sawHeading = false ∧ st.preamble ≠ []
      · simp only [if_pos hpre] at hx
        rcases mem_pushPreambleInto _ _ _ hx with hin | hne
        · exact h x hin
        · exact hne
      · simp only [if_neg hpre] at hx
        exact h x hx
    · rw [hcur] at hx
      by_cases hpre : st.sawHeading = false ∧ st.preamble ≠ []
      · simp only [if_pos hpre] at hx
        rcases mem_pushChunkInto _ _ _ hx with hin | hne
        · rcases mem_pushPreambleInto _ _ _ hin with hin2 | hne2
          · exact h x hin2
          · exact hne2
        · exact hne
      · simp only [if_neg hpre] at hx
        rcases mem_pushChunkInto _ _ _ hx with hin | hne
        · exact h x hin
        · exact hne

/-- Every chunk held after scanning a list of lines has nonempty content,
when the chunks held before do. -/
theorem chunkFold_content_ne (lines : List String) (st : ChunkState)
    (h : ∀ x ∈ st.chunks, x.content ≠ "") :
    ∀ x ∈ (lines.foldl chunkLine st).chunks, x.content ≠ "" := by
  induction lines generalizing st with
  | nil => exact h
  | cons line rest ih =>
    exact ih (chunkLine st line) (chunkLine_content_ne st line h)

/-- C6.  The chunker pops every stacked entry whose level is at least the
new heading level (the stack being well-ordered, the top-popping loop
equals dropping the qualifying elements from the top), every emitted
chunk has nonempty content, the worked example yields exactly the two
claimed chunks with their breadcrumbs in document order, and content
before the first heading forms a single Preamble chunk of level zero. -/
theorem chunkMarkdown_spec :
    (∀ (stack : List HeadEntry) (level : Nat),
      popGE stack level = stack.dropWhile (fun e => decide (level ≤ e.level))) ∧
    (∀ (md : String), ∀ x ∈ chunkMarkdown md, x.content ≠ "") ∧
    chunkMarkdown "# Title\n\nBody1\n\n## Sub\nBody2" =
      [{ title := "Title", «section» := "Title", content := "# Title\n\nBody1", level := 1 },
       { title := "Sub", «section» := "Title > Sub", content := "## Sub\nBody2", level := 2 }] ∧
    chunkMarkdown "plain text\nmore" =
      [{ title := "Preamble", «section» := "Preamble", content := "plain text\nmore", level := 0 }] := by
  refine ⟨?_, ?_, by decide, by decide⟩
  · intro stack level
    induction stack with
    | nil => rfl
    | cons e rest ih =>
      simp only [popGE, List.dropWhile]
      by_cases hl : level ≤ e.level
      · simp [hl, ih]
      · simp [hl]
  · intro md x hx
    unfold chunkMarkdown at hx
    simp only at hx
    set final := (splitLines md).foldl chunkLine
      { chunks := [], headingStack := [], current := none, preamble := [],
        sawHeading := false } with hfinal
    have hbase : ∀ y ∈ final.chunks, y.content ≠ "" := by
      apply chunkFold_content_ne
      intro y hy
      simp at hy
    by_cases hpre : final.sawHeading = false ∧ final.preamble ≠ []
    · rw [if_pos hpre] at hx
      rcases hcur : final.current with _ | c
      · rw [hcur] at hx
        rcases mem_pushPreambleInto _ _ _ hx with hin | hne
        · exact hbase x hin
        · exact hne
      · rw [hcur] at hx
        rcases mem_pushPreambleInto _ _ _ hx with hin | hne
        · rcases mem_pushChunkInto _ _ _ hin with hin2 | hne2
          · exact hbase x hin2
          · exact hne2
        · exact hne
    · rw [if_neg hpre] at hx
      rcases hcur : final.current with _ | c
      · rw [hcur] at hx
        exact hbase x hx
      · rw [hcur] at hx
        rcases mem_pushChunkInto _ _ _ hx with hin | hne
        · exact hbase x hin
        · exact hne

/-- Witness for C6: the first chunk of a small document is in the output
and its content is nonempty. -/
theorem chunkMarkdown_spec_witness :
    ({ title := "A", «section» := "A", content := "# A\nb", level := 1 } : FullChunk) ∈
      chunkMarkdown "# A\nb" ∧
    ({ title := "A", «section» := "A", content := "# A\nb", level := 1 } : FullChunk).content ≠ "" :=
  ⟨by decide, chunkMarkdown_spec.2.1 "# A\nb" _ (by decide)⟩

/-! Search-index claim: association-list lemmas. -/

/-- Lookup after insert-or-replace at the same key. -/
theorem aget_aset_self {β : Type} (l : List (String × β)) (k : String) (v : β) :
    aget (aset l k v) k = some v := by
  induction l with
  | nil => simp [aset, aget]
  | cons p rest ih =>
    obtain ⟨a, b⟩ := p
    by_cases hk : a = k
    · subst hk
      simp [aset, aget]
    · simp [aset, aget, hk, ih]

/-- Lookup after insert-or-replace at another key. -/
theorem aget_aset_ne {β : Type} (l : List (String × β)) (k k' : String) (v : β)
    (h : k' ≠ k) : aget (aset l k v) k' = aget l k' := by
  have h2 : ¬(k = k') := fun hh => h hh.symm
  induction l with
  | nil => simp [aset, aget, h2]
  | cons p rest ih =>
    obtain ⟨a, b⟩ := p
    by_cases hk : a = k
    · subst hk
      simp [aset, aget, h2]
    · by_cases ha : a = k'
      · subst ha
        simp [aset, aget, hk]
      · simp [aset, aget, hk, ha, ih]

/-- Lookup after delete at another key. -/
theorem aget_aremove_ne {β : Type} (l : List (String × β)) (k k' : String)
    (h : k' ≠ k) : aget (aremove l k) k' = aget l k' := by
  have h2 : ¬(k = k') := fun hh => h hh.symm
  induction l with
  | nil => simp [aremove]
  | cons p rest ih =>
    obtain ⟨a, b⟩ := p
    by_cases hk : a = k
    · subst hk
      simp [aremove, aget, h2]
    · simp [aremove, aget, hk, ih]

/-- Lookup misses exactly when the key is absent. -/
theorem aget_eq_none_iff {β : Type} (l : List (String × β)) (k : String) :
    aget l k = none ↔ k ∉ keysOf l := by
  induction l with
  | nil => simp [aget, keysOf]
  | cons p rest ih =>
    obtain ⟨a, b⟩ := p
    by_cases hk : a = k
    · subst hk
      simp [aget, keysOf]
    · have hk2 : ¬(k = a) := fun hh => hk hh.symm
      simp [aget, keysOf, hk, hk2, ih]

/-- Lookup after delete at the same key, with distinct keys. -/
theorem aget_aremove_self {β : Type} (l : List (String × β)) (k : String)
    (h : (keysOf l).Nodup) : aget (aremove l k) k = none := by
  induction l with
  | nil => simp [aremove, aget]
  | cons p rest ih =>
    obtain ⟨a, b⟩ := p
    simp only [keysOf, List.map_cons, List.nodup_cons] at h
    by_cases hk : a = k
    · subst hk
      simp only [aremove, if_pos rfl]
      rw [aget_eq_none_iff]
      exact h.1
    · simp only [aremove, if_neg hk, aget, if_neg hk]
      exact ih h.2

/-- Successful lookup yields a pair of the list. -/
theorem mem_of_aget {β : Type} {l : List (String × β)} {k : String} {v : β}
    (h : aget l k = some v) : (k, v) ∈ l := by
  induction l with
  | nil => simp [aget] at h
  | cons p rest ih =>
    obtain ⟨a, b⟩ := p
    by_cases hk : a = k
    · subst hk
      have hbv : b = v := by simpa [aget] using h
      subst hbv
      exact List.mem_cons_self _ _
    · simp only [aget, if_neg hk] at h
      exact List.mem_cons_of_mem _ (ih h)

/-- Insert-or-replace of an absent key appends. -/
theorem aset_of_not_mem {β : Type} (l : List (String × β)) (k : String) (v : β)
    (h : k ∉ keysOf l) : aset l k v = l ++ [(k, v)] := by
  induction l with
  | nil => simp [aset]
  | cons p rest ih =>
    obtain ⟨a, b⟩ := p
    simp only [keysOf, List.map_cons, List.mem_cons] at h
    push_neg at h
    have ha : ¬(a = k) := fun hh => h.1 hh.symm
    simp [aset, ha, ih (by simpa [keysOf] using h.2)]

/-- Keys after insert-or-replace of a present key are unchanged. -/
theorem keysOf_aset_of_mem {β : Type} (l : List (String × β)) (k : String) (v : β)
    (h : k ∈ keysOf l) : keysOf (aset l k v) = keysOf l := by
  induction l with
  | nil => simp [keysOf] at h
  | cons p rest ih =>
    obtain ⟨a, b⟩ := p
    by_cases hk : a = k
    · subst hk
      simp [aset, keysOf]
    · simp only [keysOf, List.map_cons, List.mem_cons] at h
      rcases h with h | h
      · exact absurd h.symm hk
      · have hrest := ih (by simpa [keysOf] using h)
        simp only [aset, if_neg hk, keysOf, List.map_cons]
        simp only [keysOf] at hrest
        rw [hrest]

/-- Distinct keys survive insert-or-replace. -/
theorem nodup_keys_aset {β : Type} (l : List (String × β)) (k : String) (v : β)
    (h : (keysOf l).Nodup) : (keysOf (aset l k v)).Nodup := by
  by_cases hm : k ∈ keysOf l
  · rw [keysOf_aset_of_mem l k v hm]
    exact h
  · rw [aset_of_not_mem l k v hm]
    simp only [keysOf, List.map_append, List.map_cons, List.map_nil]
    rw [List.nodup_append]
    refine ⟨h, List.nodup_singleton _, ?_⟩
    intro x hx
    simp only [List.mem_singleton]
    intro hxk
    subst hxk
    exact hm (by simpa [keysOf] using hx)

/-- Keys after delete are among the original keys. -/
theorem mem_keys_aremove {β : Type} (l : List (String × β)) (k k' : String)
    (h : k' ∈ keysOf (aremove l k)) : k' ∈ keysOf l := by
  induction l with
  | nil => simpa [aremove] using h
  | cons p rest ih =>
    obtain ⟨a, b⟩ := p
    by_cases hk : a = k
    · subst hk
      simp only [aremove, if_pos rfl] at h
      simp only [keysOf, List.map_cons, List.mem_cons]
      exact Or.inr (by simpa [keysOf] using h)
    · simp only [aremove, if_neg hk, keysOf, List.map_cons, List.mem_cons] at h
      rcases h with h | h
      · simp [keysOf, h]
      · simp only [keysOf, List.map_cons, List.mem_cons]
        exact Or.inr (ih (by simpa [keysOf] using h))

/-- Distinct keys survive delete. -/
theorem nodup_keys_aremove {β : Type} (l : List (String × β)) (k : String)
    (h : (keysOf l).Nodup) : (keysOf (aremove l k)).Nodup := by
  induction l with
  | nil => simpa [aremove] using h
  | cons p rest ih =>
    obtain ⟨a, b⟩ := p
    simp only [keysOf, List.map_cons, List.nodup_cons] at h
    by_cases hk : a = k
    · subst hk
      simp only [aremove, if_pos rfl]
      exact (by simpa [keysOf] using h.2)
    · simp only [aremove, if_neg hk, keysOf, List.map_cons, List.nodup_cons]
      refine ⟨fun hc => h.1 (mem_keys_aremove rest k a (by simpa [keysOf] using hc)), ?_⟩
      exact (by simpa [keysOf] using ih (by simpa [keysOf] using h.2))

/-- Count over the list splits off the deleted pair. -/
theorem countP_aremove {β : Type} (p : String × β → Bool) (l : List (String × β))
    (k : String) (v : β) (hget : aget l k = some v) :
    l.countP p = (aremove l k).countP p + (if p (k, v) then 1 else 0) := by
  induction l with
  | nil => simp [aget] at hget
  | cons q rest ih =>
    obtain ⟨a, b⟩ := q
    by_cases hk : a = k
    · subst hk
      have hbv : b = v := by simpa [aget] using hget
      have hrm : aremove ((a, b) :: rest) a = rest := by simp [aremove]
      rw [hrm, List.countP_cons, hbv]
    · simp only [aget, if_neg hk] at hget
      simp only [aremove, if_neg hk, List.countP_cons]
      rw [ih hget]
      omega

/-- Count after replacing a present pair. -/
theorem countP_aset_present {β : Type} (p : String × β → Bool) (l : List (String × β))
    (k : String) (v v' : β) (hget : aget l k = some v) :
    (aset l k v').countP p = (aremove l k).countP p + (if p (k, v') then 1 else 0) := by
  induction l with
  | nil => simp [aget] at hget
  | cons q rest ih =>
    obtain ⟨a, b⟩ := q
    by_cases hk : a = k
    · subst hk
      have hs : aset ((a, b) :: rest) a v' = (a, v') :: rest := by simp [aset]
      have hrm : aremove ((a, b) :: rest) a = rest := by simp [aremove]
      rw [hs, hrm, List.countP_cons]
    · simp only [aget, if_neg hk] at hget
      simp only [aset, aremove, if_neg hk, List.countP_cons]
      rw [ih hget]
      omega

/-- Mapped sum over the list splits off the deleted pair. -/
theorem summap_aremove {β : Type} (f : String × β → Int) (l : List (String × β))
    (k : String) (v : β) (hget : aget l k = some v) :
    (l.map f).sum = ((aremove l k).map f).sum + f (k, v) := by
  induction l with
  | nil => simp [aget] at hget
  | cons q rest ih =>
    obtain ⟨a, b⟩ := q
    by_cases hk : a = k
    · subst hk
      have hbv : b = v := by simpa [aget] using hget
      have hrm : aremove ((a, b) :: rest) a = rest := by simp [aremove]
      rw [hrm, List.map_cons, List.sum_cons, hbv]
      ring
    · simp only [aget, if_neg hk] at hget
      simp only [aremove, if_neg hk, List.map_cons, List.sum_cons]
      rw [ih hget]
      ring

/-- Mapped sum after replacing a present pair. -/
theorem summap_aset_present {β : Type} (f : String × β → Int) (l : List (String × β))
    (k : String) (v v' : β) (hget : aget l k = some v) :
    ((aset l k v').map f).sum = ((aremove l k).map f).sum + f (k, v') := by
  induction l with
  | nil => simp [aget] at hget
  | cons q rest ih =>
    obtain ⟨a, b⟩ := q
    by_cases hk : a = k
    · subst hk
      have hs : aset ((a, b) :: rest) a v' = (a, v') :: rest := by simp [aset]
      have hrm : aremove ((a, b) :: rest) a = rest := by simp [aremove]
      rw [hs, hrm, List.map_cons, List.sum_cons]
      ring
    · simp only [aget, if_neg hk] at hget
      simp only [aset, aremove, if_neg hk, List.map_cons, List.sum_cons]
      rw [ih hget]
      ring

/-- Length after replacing a present pair is unchanged. -/
theorem length_aset_present {β : Type} (l : List (String × β)) (k : String) (v v' : β)
    (hget : aget l k = some v) : (aset l k v').length = l.length := by
  induction l with
  | nil => simp [aget] at hget
  | cons q rest ih =>
    obtain ⟨a, b⟩ := q
    by_cases hk : a = k
    · subst hk
      simp [aset]
    · simp only [aget, if_neg hk] at hget
      simp [aset, hk, ih hget]

/-! Search-index claim: document-frequency fold lemmas. -/

/-- Incrementing folds do not touch other tokens. -/
theorem foldl_dfInc_not_mem (L : List String) (df : List (String × Nat)) (t : String)
    (h : t ∉ L) : aget (L.foldl dfInc df) t = aget df t := by
  induction L generalizing df with
  | nil => rfl
  | cons x L ih =>
    have hne : t ≠ x := fun hh => h (by simp [hh])
    have hx : t ∉ L := fun hm => h (by simp [hm])
    simp only [List.foldl_cons]
    rw [ih (dfInc df x) hx]
    unfold dfInc
    exact aget_aset_ne _ _ _ _ hne

/-- Incrementing fold over distinct tokens bumps a contained token by
one. -/
theorem foldl_dfInc_mem (L : List String) (df : List (String × Nat)) (t : String)
    (hnd : L.Nodup) (h : t ∈ L) :
    aget (L.foldl dfInc df) t = some ((aget df t).getD 0 + 1) := by
  induction L generalizing df with
  | nil => cases h
  | cons x L ih =>
    rcases List.nodup_cons.mp hnd with ⟨hxL, hndL⟩
    simp only [List.foldl_cons]
    by_cases hx : t = x
    · subst hx
      rw [foldl_dfInc_not_mem L (dfInc df t) t hxL]
      unfold dfInc
      rw [aget_aset_self]
    · have htL : t ∈ L := by
        rcases List.mem_cons.mp h with h1 | h1
        · exact absurd h1 hx
        · exact h1
      rw [ih (dfInc df x) hndL htL]
      have : aget (dfInc df x) t = aget df t := by
        unfold dfInc
        exact aget_aset_ne _ _ _ _ hx
      rw [this]

/-- One decrement step keeps the keys distinct. -/
theorem nodup_keys_dfDec (df : List (String × Nat)) (t : String)
    (h : (keysOf df).Nodup) : (keysOf (dfDec df t)).Nodup := by
  simp only [dfDec]
  by_cases hc : 1 < (aget df t).getD 0
  · rw [if_pos hc]
    exact nodup_keys_aset _ _ _ h
  · rw [if_neg hc]
    exact nodup_keys_aremove _ _ h

/-- Decrementing folds keep the keys distinct. -/
theorem nodup_keys_foldl_dfDec (L : List String) (df : List (String × Nat))
    (h : (keysOf df).Nodup) : (keysOf (L.foldl dfDec df)).Nodup := by
  induction L generalizing df with
  | nil => exact h
  | cons x L ih =>
    simp only [List.foldl_cons]
    exact ih _ (nodup_keys_dfDec df x h)

/-- Incrementing folds keep the keys distinct. -/
theorem nodup_keys_foldl_dfInc (L : List String) (df : List (String × Nat))
    (h : (keysOf df).Nodup) : (keysOf (L.foldl dfInc df)).Nodup := by
  induction L generalizing df with
  | nil => exact h
  | cons x L ih =>
    simp only [List.foldl_cons]
    exact ih _ (nodup_keys_aset _ _ _ h)

/-- Decrementing folds do not touch other tokens. -/
theorem foldl_dfDec_not_mem (L : List String) (df : List (String × Nat)) (t : String)
    (h : t ∉ L) : aget (L.foldl dfDec df) t = aget df t := by
  induction L generalizing df with
  | nil => rfl
  | cons x L ih =>
    have hne : t ≠ x := fun hh => h (by simp [hh])
    have hx : t ∉ L := fun hm => h (by simp [hm])
    simp only [List.foldl_cons]
    rw [ih (dfDec df x) hx]
    simp only [dfDec]
    by_cases hc : 1 < (aget df x).getD 0
    · rw [if_pos hc]
      exact aget_aset_ne _ _ _ _ hne
    · rw [if_neg hc]
      exact aget_aremove_ne _ _ _ hne

/-- Decrementing fold over distinct tokens drops a contained token by one,
deleting its entry when the counter does not exceed one. -/
theorem foldl_dfDec_mem (L : List String) (df : List (String × Nat)) (t : String)
    (hdf : (keysOf df).Nodup) (hnd : L.Nodup) (h : t ∈ L) :
    aget (L.foldl dfDec df) t =
      (if 1 < (aget df t).getD 0 then some ((aget df t).getD 0 - 1) else none) := by
  induction L generalizing df with
  | nil => cases h
  | cons x L ih =>
    rcases List.nodup_cons.mp hnd with ⟨hxL, hndL⟩
    simp only [List.foldl_cons]
    by_cases hx : t = x
    · subst hx
      rw [foldl_dfDec_not_mem L (dfDec df t) t hxL]
      simp only [dfDec]
      by_cases hc : 1 < (aget df t).getD 0
      · rw [if_pos hc, if_pos hc, aget_aset_self]
      · rw [if_neg hc, if_neg hc, aget_aremove_self _ _ hdf]
    · have htL : t ∈ L := by
        rcases List.mem_cons.mp h with h1 | h1
        · exact absurd h1 hx
        · exact h1
      rw [ih (dfDec df x) (nodup_keys_dfDec df x hdf) hndL htL]
      have hstep : aget (dfDec df x) t = aget df t := by
        simp only [dfDec]
        by_cases hc : 1 < (aget df x).getD 0
        · rw [if_pos hc]
          exact aget_aset_ne _ _ _ _ hx
        · rw [if_neg hc]
          exact aget_aremove_ne _ _ _ hx
      rw [hstep]

/-- Default of the representation of a counter in the frequency table. -/
theorem rep_getD (n : Nat) :
    ((if n = 0 then none else some n : Option Nat)).getD 0 = n := by
  by_cases h : n = 0 <;> simp [h]

/-- Shape bridge between the two equivalent average-length conditionals. -/
theorem avg_shape (n : Nat) (q : ℚ) :
    (if 0 < n then q / (n : ℚ) else 0) = (if n = 0 then (0 : ℚ) else q / (n : ℚ)) := by
  rcases Nat.eq_zero_or_pos n with h | h
  · simp [h]
  · rw [if_pos h, if_neg (by omega)]

/-- Fresh index is consistent. -/
theorem empty_consistent : IndexConsistent SearchIndex.empty := by
  unfold IndexConsistent SearchIndex.empty
  refine ⟨by simp [keysOf], by simp [keysOf], ?_, ?_, ?_, ?_⟩
  · intro t
    simp [aget, dfOf]
  · intro id
    simp [aget]
  · simp [lenSum]
  · simp

/-- Upsert preserves consistency: the contribution of the superseded version is
fully reversed before the new version is recorded. -/
theorem upsert_consistent (st : SearchIndex) (doc : SearchDocument)
    (h : IndexConsistent st) : IndexConsistent (SearchIndex.upsert st doc) := by
  obtain ⟨hK, hDK, hDF, hL, hT, hA⟩ := h
  rcases hget : aget st.documents doc.id with _ | oldDoc
  · -- fresh id
    have hnm : doc.id ∉ keysOf st.documents := (aget_eq_none_iff _ _).mp hget
    simp only [SearchIndex.upsert, hget]
    unfold IndexConsistent
    dsimp only
    have happ : aset st.documents doc.id doc = st.documents ++ [(doc.id, doc)] :=
      aset_of_not_mem _ _ _ hnm
    have hcount : ∀ u : String, dfOf (aset st.documents doc.id doc) u =
        dfOf st.documents u + (if u ∈ tokenize doc.text then 1 else 0) := by
      intro u
      rw [happ]
      unfold dfOf
      rw [List.countP_append]
      simp [List.countP_cons]
    refine ⟨nodup_keys_aset _ _ _ hK, nodup_keys_foldl_dfInc _ _ hDK, ?_, ?_, ?_, ?_⟩
    · intro t
      by_cases ht : t ∈ tokenize doc.text
      · have htd : t ∈ (tokenize doc.text).dedup := List.mem_dedup.mpr ht
        rw [foldl_dfInc_mem _ _ _ (List.nodup_dedup _) htd, hDF t, rep_getD, hcount t]
        simp [ht]
      · have htd : t ∉ (tokenize doc.text).dedup := fun hm => ht (List.mem_dedup.mp hm)
        rw [foldl_dfInc_not_mem _ _ _ htd, hDF t, hcount t]
        simp [ht]
    · intro id
      by_cases hid : id = doc.id
      · subst hid
        rw [aget_aset_self, aget_aset_self]
        rfl
      · rw [aget_aset_ne _ _ _ _ hid, aget_aset_ne _ _ _ _ hid, hL id]
    · have hsum : lenSum (st.documents ++ [(doc.id, doc)]) =
          lenSum st.documents + ((tokenize doc.text).length : Int) := by
        unfold lenSum
        rw [List.map_append, List.sum_append]
        simp
      rw [happ, hsum, hT]
    · exact avg_shape _ _
  · -- superseded id
    have hmem : (doc.id, oldDoc) ∈ st.documents := mem_of_aget hget
    have hlen_old : aget st.docLengths doc.id = some (tokenize oldDoc.text).length := by
      rw [hL doc.id, hget]
      rfl
    simp only [SearchIndex.upsert, hget]
    unfold IndexConsistent
    dsimp only
    have hdf1 : ∀ u : String,
        aget ((tokenize oldDoc.text).dedup.foldl dfDec st.termDocFreq) u =
          (if dfOf (aremove st.documents doc.id) u = 0 then none
           else some (dfOf (aremove st.documents doc.id) u)) := by
      intro u
      have hsplit : dfOf st.documents u =
          dfOf (aremove st.documents doc.id) u +
            (if u ∈ tokenize oldDoc.text then 1 else 0) := by
        have := countP_aremove (fun p => decide (u ∈ tokenize p.2.text))
          st.documents doc.id oldDoc hget
        simpa [dfOf] using this
      by_cases hu : u ∈ tokenize oldDoc.text
      · have hud : u ∈ (tokenize oldDoc.text).dedup := List.mem_dedup.mpr hu
        rw [foldl_dfDec_mem _ _ _ hDK (List.nodup_dedup _) hud, hDF u, rep_getD, hsplit,
          if_pos hu]
        rcases Nat.eq_zero_or_pos (dfOf (aremove st.documents doc.id) u) with hm | hm
        · simp [hm]
        · rw [if_pos (by omega), if_neg (by omega)]
          simp
      · have hud : u ∉ (tokenize oldDoc.text).dedup := fun hm => hu (List.mem_dedup.mp hm)
        rw [foldl_dfDec_not_mem _ _ _ hud, hDF u, hsplit]
        simp [hu]
    have hcount2 : ∀ u : String, dfOf (aset st.documents doc.id doc) u =
        dfOf (aremove st.documents doc.id) u +
          (if u ∈ tokenize doc.text then 1 else 0) := by
      intro u
      have := countP_aset_present (fun p => decide (u ∈ tokenize p.2.text))
        st.documents doc.id oldDoc doc hget
      simpa [dfOf] using this
    refine ⟨nodup_keys_aset _ _ _ hK,
      nodup_keys_foldl_dfInc _ _ (nodup_keys_foldl_dfDec _ _ hDK), ?_, ?_, ?_, ?_⟩
    · intro t
      by_cases ht : t ∈ tokenize doc.text
      · have htd : t ∈ (tokenize doc.text).dedup := List.mem_dedup.mpr ht
        rw [foldl_dfInc_mem _ _ _ (List.nodup_dedup _) htd, hdf1 t, rep_getD, hcount2 t]
        simp [ht]
      · have htd : t ∉ (tokenize doc.text).dedup := fun hm => ht (List.mem_dedup.mp hm)
        rw [foldl_dfInc_not_mem _ _ _ htd, hdf1 t, hcount2 t]
        simp [ht]
    · intro id
      by_cases hid : id = doc.id
      · subst hid
        rw [aget_aset_self, aget_aset_self]
        rfl
      · rw [aget_aset_ne _ _ _ _ hid, aget_aset_ne _ _ _ _ hid, hL id]
    · have hT1 : lenSum st.documents =
          lenSum (aremove st.documents doc.id) + ((tokenize oldDoc.text).length : Int) :=
        summap_aremove (fun p : String × SearchDocument => ((tokenize p.2.text).length : Int))
          st.documents doc.id oldDoc hget
      have hT2 : lenSum (aset st.documents doc.id doc) =
          lenSum (aremove st.documents doc.id) + ((tokenize doc.text).length : Int) :=
        summap_aset_present (fun p : String × SearchDocument => ((tokenize p.2.text).length : Int))
          st.documents doc.id oldDoc doc hget
      rw [hlen_old, hT2]
      simp only [Option.getD_some]
      rw [hT, hT1]
      ring
    · exact avg_shape _ _

/-- Folding mutations over a consistent state keeps it consistent. -/
theorem foldl_stepOp_consistent (ops : List IndexOp) (st : SearchIndex)
    (h : IndexConsistent st) : IndexConsistent (ops.foldl stepOp st) := by
  induction ops generalizing st with
  | nil => exact h
  | cons op rest ih =>
    simp only [List.foldl_cons]
    apply ih
    cases op with
    | upsertOp d => exact upsert_consistent st d h
    | clearOp => exact empty_consistent

/-- Any finite mutation sequence from the fresh index yields a consistent
state. -/
theorem applyOps_consistent (ops : List IndexOp) : IndexConsistent (applyOps ops) :=
  foldl_stepOp_consistent ops SearchIndex.empty empty_consistent

/-- C3.  After any finite sequence of upserts and clears, the derived
tables reflect exactly the currently held document set: the document map
holds at most one document per id, each term of the document-frequency
table counts exactly the current documents containing it (absent terms
count zero), the total length is the sum of the token
counts of the current documents, the average length is the total divided by the document count
(zero on an empty set), and the per-document length table matches the
current documents; in particular a re-upserted id leaves exactly one
document and no residual contribution of the superseded version. -/
theorem searchIndex_accumulators_reflect_documents (ops : List IndexOp) :
    (keysOf (applyOps ops).documents).Nodup ∧
    (∀ t : String, aget (applyOps ops).termDocFreq t =
      (if dfOf (applyOps ops).documents t = 0 then none
       else some (dfOf (applyOps ops).documents t))) ∧
    (applyOps ops).totalDocLength = lenSum (applyOps ops).documents ∧
    (applyOps ops).avgDocLength =
      (if (applyOps ops).documents.length = 0 then 0
       else ((applyOps ops).totalDocLength : ℚ) / ((applyOps ops).documents.length : ℚ)) ∧
    (∀ id : String, aget (applyOps ops).docLengths id =
      (aget (applyOps ops).documents id).map (fun d => (tokenize d.text).length)) := by
  obtain ⟨hK, hDK, hDF, hL, hT, hA⟩ := applyOps_consistent ops
  exact ⟨hK, hDF, hT, hA, hL⟩

/-! Crawler claims: basic facts about the worker and the handlers. -/

/-- Result depth always equals the task depth. -/
theorem crawl_result_depth (web : String → WebPage) (task : CrawlTask) :
    (CrawlerWorker.crawl web task).depth = task.depth := by
  unfold CrawlerWorker.crawl
  by_cases hok : (web task.url).ok = false <;> simp [hok]

/-- Links are produced only strictly below the depth bound. -/
theorem crawl_links_below (web : String → WebPage) (task : CrawlTask) (l : String)
    (hl : l ∈ (CrawlerWorker.crawl web task).links) : task.depth < task.maxDepth := by
  unfold CrawlerWorker.crawl at hl
  by_cases hok : (web task.url).ok = false
  · simp [hok] at hl
  · simp only [hok, if_false, Bool.false_eq_true] at hl
    by_cases hd : task.depth < task.maxDepth
    · exact hd
    · simp [hd] at hl

/-- The message handler never touches the active list, the visited set,
or the dispatch history. -/
theorem handleMessage_fixed (web : String → WebPage) (task : CrawlTask) (st : CrawlState) :
    (DeepCrawler.handleMessage web task st).active = st.active ∧
    (DeepCrawler.handleMessage web task st).crawledUrls = st.crawledUrls ∧
    (DeepCrawler.handleMessage web task st).dispatched = st.dispatched := by
  unfold DeepCrawler.handleMessage
  cases h : (CrawlerWorker.crawl web task).error <;> simp [h]

/-- The message handler appends at most one result. -/
theorem handleMessage_results_le (web : String → WebPage) (task : CrawlTask)
    (st : CrawlState) :
    (DeepCrawler.handleMessage web task st).results.length ≤ st.results.length + 1 := by
  unfold DeepCrawler.handleMessage
  cases h : (CrawlerWorker.crawl web task).error <;> simp [h]

/-- C10 ingredient: on an error result the message handler is the
identity. -/
theorem handleMessage_error_id (web : String → WebPage) (task : CrawlTask)
    (st : CrawlState) (h : (CrawlerWorker.crawl web task).error.isSome) :
    DeepCrawler.handleMessage web task st = st := by
  unfold DeepCrawler.handleMessage
  cases he : (CrawlerWorker.crawl web task).error with
  | none => rw [he] at h; simp at h
  | some e => simp [he]

/-! Crawler claims: generic invariant propagation through the loop. -/

/-- Invariants preserved by one completion survive a completion run. -/
theorem applyCompletions_inv (web : String → WebPage) (P : CrawlState → Prop)
    (hcomp : ∀ st i, P st → P (DeepCrawler.completeAt web st i)) :
    ∀ (idxs : List Nat) (st : CrawlState), P st →
      P (DeepCrawler.applyCompletions web st idxs) := by
  intro idxs
  induction idxs with
  | nil => intro st h; exact h
  | cons i rest ih =>
    intro st h
    exact ih _ (hcomp st i h)

/-- Invariants preserved by one completion survive the drain. -/
theorem drainAux_inv (web : String → WebPage) (P : CrawlState → Prop)
    (hcomp : ∀ st i, P st → P (DeepCrawler.completeAt web st i)) :
    ∀ (n : Nat) (st : CrawlState), P st → P (DeepCrawler.drainAux web n st) := by
  intro n
  induction n with
  | zero => intro st h; exact h
  | succ n ih =>
    intro st h
    exact ih _ (hcomp st 0 h)

/-- Invariants preserved by dispatch, completion and queue discard are
preserved by the whole scheduling loop. -/
theorem processTasks_inv (web : String → WebPage) (maxW maxD : Nat)
    (P : CrawlState → Prop)
    (hdisp : ∀ st, P st → P (DeepCrawler.dispatchLoop maxW maxD st))
    (hcomp : ∀ st i, P st → P (DeepCrawler.completeAt web st i))
    (hclear : ∀ st, P st → P { st with pendingTasks := [] }) :
    ∀ (fuel : Nat) (sched : List (List Nat)) (st final : CrawlState),
      P st → DeepCrawler.processTasks web maxW maxD fuel sched st = some final →
      P final := by
  intro fuel
  induction fuel with
  | zero =>
    intro sched st final hP hrun
    simp [DeepCrawler.processTasks] at hrun
  | succ fuel ih =>
    intro sched st final hP hrun
    rw [DeepCrawler.processTasks] at hrun
    by_cases h1 : st.pendingTasks = [] ∧ st.active = []
    · rw [if_pos h1] at hrun
      injection hrun with hfin
      rw [← hfin]
      exact hP
    · rw [if_neg h1] at hrun
      by_cases h2 : maxD ≤ st.results.length
      · rw [if_pos h2] at hrun
        injection hrun with hfin
        rw [← hfin]
        exact drainAux_inv web P hcomp _ _ (hclear st hP)
      · rw [if_neg h2] at hrun
        simp only at hrun
        by_cases h3 : maxW ≤ (DeepCrawler.dispatchLoop maxW maxD st).active.length ∧
            (DeepCrawler.dispatchLoop maxW maxD st).active ≠ []
        · rw [if_pos h3] at hrun
          exact ih _ _ _ (applyCompletions_inv web P hcomp _ _ (hdisp st hP)) hrun
        · rw [if_neg h3] at hrun
          by_cases h4 : (DeepCrawler.dispatchLoop maxW maxD st).pendingTasks = [] ∧
              (DeepCrawler.dispatchLoop maxW maxD st).active ≠ []
          · rw [if_pos h4] at hrun
            exact ih _ _ _ (applyCompletions_inv web P hcomp _ _ (hdisp st hP)) hrun
          · rw [if_neg h4] at hrun
            exact ih _ _ _ (hdisp st hP) hrun

/-! Crawler claims: per-claim step lemmas. -/

/-- Budget measure: the dispatch loop keeps results plus in-flight tasks
below budget plus workers, by its double guard. -/
theorem dispatchAux_budget (maxW maxD : Nat) (pending : List CrawlTask) (st : CrawlState)
    (h : st.results.length + st.active.length < maxD + maxW) :
    (DeepCrawler.dispatchAux maxW maxD pending st).results.length +
      (DeepCrawler.dispatchAux maxW maxD pending st).active.length < maxD + maxW := by
  induction pending generalizing st with
  | nil => simpa [DeepCrawler.dispatchAux] using h
  | cons task rest ih =>
    rw [DeepCrawler.dispatchAux]
    by_cases hg : st.active.length < maxW ∧ st.results.length < maxD
    · rw [if_pos hg]
      by_cases hv : task.url ∈ st.crawledUrls
      · rw [if_pos hv]
        exact ih st h
      · rw [if_neg hv]
        refine ih _ ?_
        obtain ⟨hg1, hg2⟩ := hg
        simp only [List.length_append, List.length_cons, List.length_nil]
        omega
    · rw [if_neg hg]
      exact h

/-- Budget measure: a completion frees one worker and appends at most one
result. -/
theorem completeAt_budget (web : String → WebPage) (st : CrawlState) (i maxW maxD : Nat)
    (h : st.results.length + st.active.length < maxD + maxW) :
    (DeepCrawler.completeAt web st i).results.length +
      (DeepCrawler.completeAt web st i).active.length < maxD + maxW := by
  unfold DeepCrawler.completeAt
  by_cases hi : i < st.active.length
  · rw [dif_pos hi]
    have hfix := (handleMessage_fixed web (st.active.get ⟨i, hi⟩)
      { st with active := st.active.eraseIdx i }).1
    have hres := handleMessage_results_le web (st.active.get ⟨i, hi⟩)
      { st with active := st.active.eraseIdx i }
    have hlen : (st.active.eraseIdx i).length = st.active.length - 1 :=
      List.length_eraseIdx_of_lt hi
    rw [hfix]
    dsimp only at hres ⊢
    omega
  · rw [dif_neg hi]
    exact h

/-- Depth bound: dispatch only moves tasks between queues. -/
theorem dispatchAux_depth (maxW maxD md : Nat) (pending : List CrawlTask) (st : CrawlState)
    (hp : ∀ t ∈ pending, t.maxDepth = md ∧ t.depth ≤ md)
    (ha : ∀ t ∈ st.active, t.maxDepth = md ∧ t.depth ≤ md)
    (hr : ∀ d ∈ st.results, d.depth ≤ md) :
    (∀ t ∈ (DeepCrawler.dispatchAux maxW maxD pending st).pendingTasks,
      t.maxDepth = md ∧ t.depth ≤ md) ∧
    (∀ t ∈ (DeepCrawler.dispatchAux maxW maxD pending st).active,
      t.maxDepth = md ∧ t.depth ≤ md) ∧
    (∀ d ∈ (DeepCrawler.dispatchAux maxW maxD pending st).results, d.depth ≤ md) := by
  induction pending generalizing st with
  | nil =>
    rw [DeepCrawler.dispatchAux]
    exact ⟨fun t ht => absurd ht (List.not_mem_nil t), ha, hr⟩
  | cons task rest ih =>
    rw [DeepCrawler.dispatchAux]
    by_cases hg : st.active.length < maxW ∧ st.results.length < maxD
    · rw [if_pos hg]
      by_cases hv : task.url ∈ st.crawledUrls
      · rw [if_pos hv]
        exact ih st (fun t ht => hp t (by simp [ht])) ha hr
      · rw [if_neg hv]
        refine ih _ (fun t ht => hp t (by simp [ht])) ?_ hr
        intro t ht
        dsimp only at ht
        rcases List.mem_append.mp ht with ht | ht
        · exact ha t ht
        · have heq : t = task := by simpa using ht
          subst heq
          exact hp t (by simp)
    · rw [if_neg hg]
      refine ⟨?_, ha, hr⟩
      intro t ht
      dsimp only at ht
      rcases List.mem_cons.mp ht with ht | ht
      · subst ht
        exact hp t (by simp)
      · exact hp t (by simp [ht])

/-- Depth bound: a handled success appends a document at the task depth
and children one level deeper, only when the task was strictly below its
bound. -/
theorem handleMessage_depth (web : String → WebPage) (task : CrawlTask) (st : CrawlState)
    (md : Nat) (htask : task.maxDepth = md ∧ task.depth ≤ md)
    (hp : ∀ t ∈ st.pendingTasks, t.maxDepth = md ∧ t.depth ≤ md)
    (hr : ∀ d ∈ st.results, d.depth ≤ md) :
    (∀ t ∈ (DeepCrawler.handleMessage web task st).pendingTasks,
      t.maxDepth = md ∧ t.depth ≤ md) ∧
    (∀ d ∈ (DeepCrawler.handleMessage web task st).results, d.depth ≤ md) := by
  unfold DeepCrawler.handleMessage
  cases he : (CrawlerWorker.crawl web task).error with
  | some e =>
    simp only [he]
    exact ⟨hp, hr⟩
  | none =>
    simp only [he]
    constructor
    · intro t ht
      rcases List.mem_append.mp ht with ht | ht
      · exact hp t ht
      · simp only [List.mem_map, List.mem_filter] at ht
        obtain ⟨l, ⟨hl, _⟩, rfl⟩ := ht
        have hlt : task.depth < task.maxDepth := crawl_links_below web task l hl
        have hdep := crawl_result_depth web task
        refine ⟨htask.1, ?_⟩
        dsimp only
        rw [hdep]
        omega
    · intro d hd
      rcases List.mem_append.mp hd with hd | hd
      · exact hr d hd
      · have hde : d =
            ({ url := (CrawlerWorker.crawl web task).url,
               content := (CrawlerWorker.crawl web task).content,
               depth := (CrawlerWorker.crawl web task).depth,
               «section» := task.«section»,
               title := task.title } : CrawledDocument) := by
          simpa using hd
        rw [hde, crawl_result_depth web task]
        exact htask.2

/-- Depth bound: a completion preserves all three depth conditions. -/
theorem completeAt_depth (web : String → WebPage) (st : CrawlState) (i md : Nat)
    (hp : ∀ t ∈ st.pendingTasks, t.maxDepth = md ∧ t.depth ≤ md)
    (ha : ∀ t ∈ st.active, t.maxDepth = md ∧ t.depth ≤ md)
    (hr : ∀ d ∈ st.results, d.depth ≤ md) :
    (∀ t ∈ (DeepCrawler.completeAt web st i).pendingTasks,
      t.maxDepth = md ∧ t.depth ≤ md) ∧
    (∀ t ∈ (DeepCrawler.completeAt web st i).active, t.maxDepth = md ∧ t.depth ≤ md) ∧
    (∀ d ∈ (DeepCrawler.completeAt web st i).results, d.depth ≤ md) := by
  unfold DeepCrawler.completeAt
  by_cases hi : i < st.active.length
  · rw [dif_pos hi]
    have htask : (st.active.get ⟨i, hi⟩).maxDepth = md ∧ (st.active.get ⟨i, hi⟩).depth ≤ md :=
      ha _ (st.active.get_mem i hi)
    have hsub := handleMessage_depth web (st.active.get ⟨i, hi⟩)
      { st with active := st.active.eraseIdx i } md htask hp hr
    refine ⟨hsub.1, ?_, hsub.2⟩
    intro t ht
    rw [(handleMessage_fixed web (st.active.get ⟨i, hi⟩)
      { st with active := st.active.eraseIdx i }).1] at ht
    exact ha t ((List.eraseIdx_sublist _ _).mem ht)
  · rw [dif_neg hi]
    exact ⟨hp, ha, hr⟩

/-- Visited set only ever grows through dispatch. -/
theorem dispatchAux_mono (maxW maxD : Nat) (pending : List CrawlTask) (st : CrawlState)
    (u : String) (h : u ∈ st.crawledUrls) :
    u ∈ (DeepCrawler.dispatchAux maxW maxD pending st).crawledUrls := by
  induction pending generalizing st with
  | nil =>
    rw [DeepCrawler.dispatchAux]
    exact h
  | cons task rest ih =>
    rw [DeepCrawler.dispatchAux]
    by_cases hg : st.active.length < maxW ∧ st.results.length < maxD
    · rw [if_pos hg]
      by_cases hv : task.url ∈ st.crawledUrls
      · rw [if_pos hv]
        exact ih st h
      · rw [if_neg hv]
        exact ih _ (by simp [h])
    · rw [if_neg hg]
      exact h

/-- Completion never touches the visited set. -/
theorem completeAt_crawled (web : String → WebPage) (st : CrawlState) (i : Nat) :
    (DeepCrawler.completeAt web st i).crawledUrls = st.crawledUrls := by
  unfold DeepCrawler.completeAt
  by_cases hi : i < st.active.length
  · rw [dif_pos hi]
    exact (handleMessage_fixed web (st.active.get ⟨i, hi⟩)
      { st with active := st.active.eraseIdx i }).2.1
  · rw [dif_neg hi]

/-- Dispatch uniqueness: the dispatch history has distinct URLs, every
dispatched URL is visited, and every in-flight URL is visited. -/
theorem dispatchAux_visited (maxW maxD : Nat) (pending : List CrawlTask) (st : CrawlState)
    (h1 : (st.dispatched.map (fun t => t.url)).Nodup)
    (h2 : ∀ t ∈ st.dispatched, t.url ∈ st.crawledUrls)
    (h3 : ∀ t ∈ st.active, t.url ∈ st.crawledUrls) :
    ((DeepCrawler.dispatchAux maxW maxD pending st).dispatched.map (fun t => t.url)).Nodup ∧
    (∀ t ∈ (DeepCrawler.dispatchAux maxW maxD pending st).dispatched,
      t.url ∈ (DeepCrawler.dispatchAux maxW maxD pending st).crawledUrls) ∧
    (∀ t ∈ (DeepCrawler.dispatchAux maxW maxD pending st).active,
      t.url ∈ (DeepCrawler.dispatchAux maxW maxD pending st).crawledUrls) := by
  induction pending generalizing st with
  | nil =>
    rw [DeepCrawler.dispatchAux]
    exact ⟨h1, h2, h3⟩
  | cons task rest ih =>
    rw [DeepCrawler.dispatchAux]
    by_cases hg : st.active.length < maxW ∧ st.results.length < maxD
    · rw [if_pos hg]
      by_cases hv : task.url ∈ st.crawledUrls
      · rw [if_pos hv]
        exact ih st h1 h2 h3
      · rw [if_neg hv]
        refine ih _ ?_ ?_ ?_
        · dsimp only
          rw [List.map_append]
          rw [List.nodup_append]
          refine ⟨h1, by simp, ?_⟩
          intro x hx
          simp only [List.map_cons, List.map_nil, List.mem_singleton]
          intro hxu
          subst hxu
          simp only [List.mem_map] at hx
          obtain ⟨t, htm, hturl⟩ := hx
          exact hv (by rw [← hturl]; exact h2 t htm)
        · intro t ht
          dsimp only at ht ⊢
          rcases List.mem_append.mp ht with ht | ht
          · exact List.mem_append_left _ (h2 t ht)
          · have heq : t = task := by simpa using ht
            subst heq
            exact List.mem_append_right _ (by simp)
        · intro t ht
          dsimp only at ht ⊢
          rcases List.mem_append.mp ht with ht | ht
          · exact List.mem_append_left _ (h3 t ht)
          · have heq : t = task := by simpa using ht
            subst heq
            exact List.mem_append_right _ (by simp)
    · rw [if_neg hg]
      exact ⟨h1, h2, h3⟩

/-- Dispatch uniqueness survives a completion. -/
theorem completeAt_visited (web : String → WebPage) (st : CrawlState) (i : Nat)
    (h1 : (st.dispatched.map (fun t => t.url)).Nodup)
    (h2 : ∀ t ∈ st.dispatched, t.url ∈ st.crawledUrls)
    (h3 : ∀ t ∈ st.active, t.url ∈ st.crawledUrls) :
    ((DeepCrawler.completeAt web st i).dispatched.map (fun t => t.url)).Nodup ∧
    (∀ t ∈ (DeepCrawler.completeAt web st i).dispatched,
      t.url ∈ (DeepCrawler.completeAt web st i).crawledUrls) ∧
    (∀ t ∈ (DeepCrawler.completeAt web st i).active,
      t.url ∈ (DeepCrawler.completeAt web st i).crawledUrls) := by
  unfold DeepCrawler.completeAt
  by_cases hi : i < st.active.length
  · rw [dif_pos hi]
    have hfix := handleMessage_fixed web (st.active.get ⟨i, hi⟩)
      { st with active := st.active.eraseIdx i }
    refine ⟨?_, ?_, ?_⟩
    · rw [hfix.2.2]
      exact h1
    · intro t ht
      rw [hfix.2.2] at ht
      rw [hfix.2.1]
      exact h2 t ht
    · intro t ht
      rw [hfix.1] at ht
      rw [hfix.2.1]
      exact h3 t ((List.eraseIdx_sublist _ _).mem ht)
  · rw [dif_neg hi]
    exact ⟨h1, h2, h3⟩

/-! Crawler claim theorems. -/

/-- C1 (amended).  The document budget only gates dispatch: a worker
already in flight pushes its document unconditionally when it settles, so
a finished crawl holds fewer than maxDocuments plus maxWorkers documents
(at most maxDocuments + maxWorkers - 1), not at most maxDocuments. -/
theorem crawl_results_bounded (web : String → WebPage) (opts : CrawlerOptions)
    (seeds : List SeedLink) (sched : List (List Nat)) (fuel : Nat) (final : CrawlState)
    (hW : 1 ≤ opts.maxWorkers)
    (hrun : DeepCrawler.crawl web opts seeds sched fuel = some final) :
    final.results.length <
      opts.maxDocuments.getD DEFAULT_MAX_CRAWL_DOCUMENTS + opts.maxWorkers := by
  simp only [DeepCrawler.crawl] at hrun
  have hinv := processTasks_inv web opts.maxWorkers
    (opts.maxDocuments.getD DEFAULT_MAX_CRAWL_DOCUMENTS)
    (fun st => st.results.length + st.active.length <
      opts.maxDocuments.getD DEFAULT_MAX_CRAWL_DOCUMENTS + opts.maxWorkers)
    (fun st h => dispatchAux_budget _ _ st.pendingTasks st h)
    (fun st i h => completeAt_budget web st i _ _ h)
    (fun st h => h)
    fuel sched _ final (by simp only [List.length_nil]; omega) hrun
  omega

/-- Witness for C1: a crawl with no seeds finishes immediately within the
bound. -/
theorem crawl_results_bounded_witness :
    ({ crawledUrls := [], pendingTasks := [], active := [], results := [],
       dispatched := [] } : CrawlState).results.length <
      optsFive.maxDocuments.getD DEFAULT_MAX_CRAWL_DOCUMENTS + optsFive.maxWorkers :=
  crawl_results_bounded webFive optsFive [] [] 1 _ (by decide) (by decide)

/-- Counterexample for C1 as stated.  Five markdown seeds, four workers
and a budget of two: the inner loop dispatches four workers before any of
them can settle, their results are pushed unconditionally, and the fifth
seed is dispatched while the result count is still below the budget, so
the crawl returns five documents, not two. -/
theorem crawl_budget_counterexample :
    ((DeepCrawler.crawl webFive optsFive seedsFive schedFive 10).map
      (fun st => st.results.length)) = some 5 ∧ ¬(5 ≤ 2) :=
  ⟨by decide, by decide⟩

/-- C5.  A fetch unit extracts links only strictly below the depth bound,
no document of a finished run exceeds the configured depth, and the
worked seed graph with depth bound one yields exactly the three documents
of depths zero and one, the deeper page never fetched. -/
theorem crawl_depth_bounded :
    (∀ (web : String → WebPage) (task : CrawlTask) (l : String),
      l ∈ (CrawlerWorker.crawl web task).links → task.depth < task.maxDepth) ∧
    (∀ (web : String → WebPage) (opts : CrawlerOptions) (seeds : List SeedLink)
      (sched : List (List Nat)) (fuel : Nat) (final : CrawlState),
      DeepCrawler.crawl web opts seeds sched fuel = some final →
      ∀ d ∈ final.results, d.depth ≤ opts.maxDepth) ∧
    (DeepCrawler.crawl webChain optsChain seedsChain schedChain 10).map
      (fun st => (st.results.map (fun d => d.url), st.crawledUrls)) =
      some (["A.md", "B.md", "C.md"], ["A.md", "B.md", "C.md"]) := by
  refine ⟨crawl_links_below, ?_, by decide⟩
  intro web opts seeds sched fuel final hrun
  simp only [DeepCrawler.crawl] at hrun
  have hinv := processTasks_inv web opts.maxWorkers
    (opts.maxDocuments.getD DEFAULT_MAX_CRAWL_DOCUMENTS)
    (fun st =>
      (∀ t ∈ st.pendingTasks, t.maxDepth = opts.maxDepth ∧ t.depth ≤ opts.maxDepth) ∧
      (∀ t ∈ st.active, t.maxDepth = opts.maxDepth ∧ t.depth ≤ opts.maxDepth) ∧
      (∀ d ∈ st.results, d.depth ≤ opts.maxDepth))
    (fun st h => dispatchAux_depth _ _ _ st.pendingTasks st h.1 h.2.1 h.2.2)
    (fun st i h => completeAt_depth web st i _ h.1 h.2.1 h.2.2)
    (fun st h => ⟨fun t ht => absurd ht (List.not_mem_nil t), h.2.1, h.2.2⟩)
    fuel sched _ final ?_ hrun
  · exact hinv.2.2
  · refine ⟨?_, fun t ht => absurd ht (List.not_mem_nil t),
      fun d hd => absurd hd (List.not_mem_nil d)⟩
    intro t ht
    simp only [List.mem_map] at ht
    obtain ⟨s, _, rfl⟩ := ht
    exact ⟨rfl, Nat.zero_le _⟩

/-- Witness for C5: in the worked graph, the seed page at depth zero with
bound one does produce links, so its depth is strictly below its bound. -/
theorem crawl_depth_bounded_witness :
    "B.md" ∈ (CrawlerWorker.crawl webChain
      { url := "A.md", depth := 0, maxDepth := 1, parentUrl := "",
        «section» := "S", title := "A" }).links ∧
    ({ url := "A.md", depth := 0, maxDepth := 1, parentUrl := "",
       «section» := "S", title := "A" } : CrawlTask).depth <
      ({ url := "A.md", depth := 0, maxDepth := 1, parentUrl := "",
         «section» := "S", title := "A" } : CrawlTask).maxDepth :=
  ⟨by decide, crawl_depth_bounded.1 webChain _ "B.md" (by decide)⟩

/-- C10.  The visited set never shrinks during a run; once a crawl
finishes, the dispatch history carries pairwise distinct URLs, each of
them marked visited before dispatch (so a URL whose fetch fails stays
visited and is never dispatched again); and an error result adds no
document and enqueues nothing. -/
theorem crawl_visited_once :
    (∀ (web : String → WebPage) (maxW maxD fuel : Nat) (sched : List (List Nat))
      (st final : CrawlState),
      DeepCrawler.processTasks web maxW maxD fuel sched st = some final →
      ∀ u ∈ st.crawledUrls, u ∈ final.crawledUrls) ∧
    (∀ (web : String → WebPage) (opts : CrawlerOptions) (seeds : List SeedLink)
      (sched : List (List Nat)) (fuel : Nat) (final : CrawlState),
      DeepCrawler.crawl web opts seeds sched fuel = some final →
      ((final.dispatched.map (fun t => t.url)).Nodup ∧
        ∀ t ∈ final.dispatched, t.url ∈ final.crawledUrls)) ∧
    (∀ (web : String → WebPage) (task : CrawlTask) (st : CrawlState),
      (CrawlerWorker.crawl web task).error.isSome →
      DeepCrawler.handleMessage web task st = st) := by
  refine ⟨?_, ?_, handleMessage_error_id⟩
  · intro web maxW maxD fuel sched st final hrun u hu
    exact processTasks_inv web maxW maxD (fun s => u ∈ s.crawledUrls)
      (fun s h => dispatchAux_mono _ _ s.pendingTasks s u h)
      (fun s i h => by
        show u ∈ (DeepCrawler.completeAt web s i).crawledUrls
        rw [completeAt_crawled web s i]
        exact h)
      (fun s h => h)
      fuel sched st final hu hrun
  · intro web opts seeds sched fuel final hrun
    simp only [DeepCrawler.crawl] at hrun
    have hinv := processTasks_inv web opts.maxWorkers
      (opts.maxDocuments.getD DEFAULT_MAX_CRAWL_DOCUMENTS)
      (fun s => ((s.dispatched.map (fun t : CrawlTask => t.url)).Nodup ∧
        (∀ t ∈ s.dispatched, t.url ∈ s.crawledUrls) ∧
        (∀ t ∈ s.active, t.url ∈ s.crawledUrls)))
      (fun s h => dispatchAux_visited _ _ s.pendingTasks s h.1 h.2.1 h.2.2)
      (fun s i h => completeAt_visited web s i h.1 h.2.1 h.2.2)
      (fun s h => ⟨h.1, h.2.1, h.2.2⟩)
      fuel sched _ final
      ⟨by simp, fun t ht => absurd ht (List.not_mem_nil t),
        fun t ht => absurd ht (List.not_mem_nil t)⟩ hrun
    exact ⟨hinv.1, hinv.2.1⟩

/-- Witness for C10: a worker error result leaves the coordinator state
untouched. -/
theorem crawl_visited_once_witness :
    (CrawlerWorker.crawl (fun _ => { ok := false, content := "", links := [] })
      { url := "x.md", depth := 0, maxDepth := 0, parentUrl := "",
        «section» := "S", title := "T" }).error.isSome = true ∧
    DeepCrawler.handleMessage (fun _ => { ok := false, content := "", links := [] })
      { url := "x.md", depth := 0, maxDepth := 0, parentUrl := "",
        «section» := "S", title := "T" }
      { crawledUrls := ["x.md"], pendingTasks := [], active := [], results := [],
        dispatched := [] } =
      { crawledUrls := ["x.md"], pendingTasks := [], active := [], results := [],
        dispatched := [] } :=
  ⟨by decide, crawl_visited_once.2.2 _ _ _ (by decide)⟩
